import Mathlib

/-!
Verification development for the MHTML component-analyzer repository
(`app.py`, the strict tag-based classifier, and `app1.py`, the loose
keyword-based classifier).

The HTML element tree produced by `BeautifulSoup(html, "lxml")` is modelled
by the inductive type `Node`; the classifier, the deduplicator/normalizer,
the aggregator, the MHTML extractor and the insight requester are modelled
as executable functions over that tree and over association lists that stand
for Python dictionaries (in insertion order, as Python dicts preserve it).
-/

mutual
/-- An HTML DOM node: an element with a tag name, attributes (as written in
the markup, with `class` holding the space-separated token string) and
children, or a text node. `NodeList` is the mutual list type so that all
traversals are structural recursions. -/
inductive Node where
  | elem (name : String) (attrs : List (String × String)) (children : NodeList)
  | text (s : String)
deriving DecidableEq
inductive NodeList where
  | nil
  | cons (head : Node) (tail : NodeList)
deriving DecidableEq
end

/-- Build a `NodeList` from a Lean list (concrete-document convenience). -/
def NodeList.ofList : List Node → NodeList
  | [] => .nil
  | h :: t => .cons h (NodeList.ofList t)

/-- Element smart constructor taking a plain list of children. -/
def Node.el (name : String) (attrs : List (String × String)) (children : List Node) : Node :=
  .elem name attrs (NodeList.ofList children)

/-- Text-node smart constructor. -/
def Node.tx (s : String) : Node := .text s

/-- Tag name of a node (`tag.name` in BeautifulSoup); text nodes have none. -/
def Node.nameOf : Node → String
  | .elem n _ _ => n
  | .text _ => ""

/-- Attribute list of a node. -/
def Node.attrsOf : Node → List (String × String)
  | .elem _ a _ => a
  | .text _ => []

/-- Children of a node. -/
def Node.childrenOf : Node → NodeList
  | .elem _ _ cs => cs
  | .text _ => .nil

/-- `tag.get(k)`: first attribute value for key `k`, if any. -/
def Node.attr (n : Node) (k : String) : Option String :=
  (n.attrsOf).lookup k

mutual
/-- All descendant text-node contents of a node, in document order
(BeautifulSoup's `tag.strings`). -/
def Node.strings : Node → List String
  | .text s => [s]
  | .elem _ _ cs => NodeList.strings cs
def NodeList.strings : NodeList → List String
  | .nil => []
  | .cons h t => Node.strings h ++ NodeList.strings t
end

mutual
/-- A node together with all elements of its subtree (itself included),
in document (preorder) order; for a forest, all elements in order.
This is the traversal order of `soup.find_all`. -/
def Node.subElems : Node → List Node
  | .text _ => []
  | .elem n a cs => .elem n a cs :: NodeList.subElems cs
def NodeList.subElems : NodeList → List Node
  | .nil => []
  | .cons h t => Node.subElems h ++ NodeList.subElems t
end

mutual
/-- Every element of the forest paired with its list of enclosing elements
(nearest ancestor first), in document order. `anc` is the ancestor context
of the forest itself. This supports `find_parent` checks. -/
def Node.elemsWithAnc (anc : List Node) : Node → List (List Node × Node)
  | .text _ => []
  | .elem n a cs =>
      (anc, Node.elem n a cs) :: NodeList.elemsWithAnc (Node.elem n a cs :: anc) cs
def NodeList.elemsWithAnc (anc : List Node) : NodeList → List (List Node × Node)
  | .nil => []
  | .cons h t => Node.elemsWithAnc anc h ++ NodeList.elemsWithAnc anc t
end

/-- Attribute rendering used by the serializer modelling Python's `str(tag)`. -/
def attrsStr (attrs : List (String × String)) : String :=
  String.join (attrs.map (fun kv => " " ++ kv.1 ++ "=" ++ "\"" ++ kv.2 ++ "\""))

mutual
/-- Serialization of a node back to markup, modelling `str(tag)`. -/
def Node.toHtml : Node → String
  | .text s => s
  | .elem n a cs => "<" ++ n ++ attrsStr a ++ ">" ++ NodeList.toHtml cs ++ "</" ++ n ++ ">"
def NodeList.toHtml : NodeList → String
  | .nil => ""
  | .cons h t => Node.toHtml h ++ NodeList.toHtml t
end

/-! ### String helpers mirroring the Python primitives -/

/-- Python `str.strip()`: drop whitespace from both ends. -/
def pystrip (s : String) : String :=
  ⟨((s.data.dropWhile Char.isWhitespace).reverse.dropWhile Char.isWhitespace).reverse⟩

/-- Python `s[:n]`: the first `n` characters. -/
def pytake (n : Nat) (s : String) : String := ⟨s.data.take n⟩

/-- Python `str.lower()` (ASCII case folding suffices for the keyword sets). -/
def pylower (s : String) : String := ⟨s.data.map Char.toLower⟩

/-- Python `str.upper()`. -/
def pyupper (s : String) : String := ⟨s.data.map Char.toUpper⟩

/-- Boolean list-prefix test. -/
def isPrefixB : List Char → List Char → Bool
  | [], _ => true
  | _ :: _, [] => false
  | a :: as, b :: bs => a == b && isPrefixB as bs

/-- Boolean list-infix test. -/
def infixB (n : List Char) : List Char → Bool
  | [] => n.isEmpty
  | c :: cs => isPrefixB n (c :: cs) || infixB n cs

/-- Python `needle in haystack` on strings. -/
def substrB (needle hay : String) : Bool := infixB needle.data hay.data

/-- Split a character list at spaces (Python-style whitespace splitting of
the class attribute, empty pieces to be discarded by the caller). -/
def splitOnSpace : List Char → List (List Char)
  | [] => [[]]
  | c :: cs =>
      match splitOnSpace cs with
      | [] => [[]]
      | t :: ts => if c = ' ' then [] :: t :: ts else (c :: t) :: ts

/-- `tag.get("class", [])` in BeautifulSoup: the whitespace-split class
tokens of the element. -/
def Node.classesOf (n : Node) : List String :=
  ((splitOnSpace ((n.attr "class").getD "").data).map (fun l => (⟨l⟩ : String))).filter (· ≠ "")

/-- `tag.get_text(strip=True)` (app.py): concatenation of the stripped,
non-empty descendant text fragments. -/
def Node.getTextS (n : Node) : String :=
  String.join (((n.strings).map pystrip).filter (· ≠ ""))

/-- `tag.get_text(" ", strip=True)` (app1.py): the same fragments joined
with a single space. -/
def Node.getTextSp (n : Node) : String :=
  String.intercalate " " (((n.strings).map pystrip).filter (· ≠ ""))

/-! ### Records and classification results (Python dicts as assoc lists) -/

/-- A component record: a Python dict from string keys to string-or-null
values, in insertion order. `none` is Python's `None`. -/
abbrev JRec := List (String × Option String)

/-- A classification result: a Python dict from category name to the ordered
list of its component records. -/
abbrev Comps := List (String × List JRec)

/-- Lexicographic order on character lists (string comparison as Python
compares dict keys when sorting). -/
def charsLe : List Char → List Char → Bool
  | [], _ => true
  | _ :: _, [] => false
  | a :: as, b :: bs => if a = b then charsLe as bs else decide (a < b)

/-- Ordered insertion for the key-sorted signature. -/
def insertByKey (x : String × Option String) : JRec → JRec
  | [] => [x]
  | y :: ys => if charsLe x.1.data y.1.data then x :: y :: ys else y :: insertByKey x ys

/-- The `json.dumps(itm, sort_keys=True)` signature of a record: the record
with its entries sorted by key. Two records are duplicates exactly when
their signatures coincide. -/
def sigOf : JRec → JRec
  | [] => []
  | x :: xs => insertByKey x (sigOf xs)

/-- First-occurrence deduplication by signature; `seen` is the set of
signatures already kept. -/
def dedup (seen : List JRec) : List JRec → List JRec
  | [] => []
  | i :: is => if sigOf i ∈ seen then dedup seen is else i :: dedup (sigOf i :: seen) is

/-- `itm[k] = itm[k] or ""`: rewrite the value at key `k` (when the key is
present) so that `None` and `""` both become `""`. -/
def normField (r : JRec) (k : String) : JRec :=
  r.map (fun kv => if kv.1 = k then (kv.1, some (kv.2.getD "")) else kv)

/-- `comps[c]` with a missing key reading as the empty list. -/
def getCat (m : Comps) (c : String) : List JRec :=
  (List.lookup c m).getD []

/-- `comps[c].append(r)` on a `defaultdict(list)`: extend the entry for `c`
in place, or create it at the end. -/
def addItem (m : Comps) (c : String) (r : JRec) : Comps :=
  match m with
  | [] => [(c, [r])]
  | e :: rest => if e.1 = c then (e.1, e.2 ++ [r]) :: rest else e :: addItem rest c r

/-- Append a whole phase's records to one category. -/
def addAll (m : Comps) (c : String) (rs : List JRec) : Comps :=
  rs.foldl (fun acc r => addItem acc c r) m

/-- The deduplication loop shared by both `clean_components` variants:
each category's list is deduplicated, and a category key is created in the
output only when at least one record is kept. -/
def dedupPhase : Comps → Comps
  | [] => []
  | e :: rest =>
      let d := dedup [] e.2
      if d.isEmpty then dedupPhase rest else (e.1, d) :: dedupPhase rest

/-- Reading `clean[c]` on a `defaultdict(list)`: creates the key with an
empty list when absent. -/
def ensureKey (m : Comps) (c : String) : Comps :=
  match List.lookup c m with
  | some _ => m
  | none => m ++ [(c, [])]

/-- Apply a record rewrite to every record stored under category `c`. -/
def mapField (m : Comps) (c : String) (f : JRec → JRec) : Comps :=
  m.map (fun e => if e.1 = c then (e.1, e.2.map f) else e)

/-! ### Shared element predicates and record builders -/

/-- `find_all("a", href=True)` membership: an anchor carrying `href`. -/
def isHrefAnchor (t : Node) : Bool :=
  t.nameOf == "a" && (t.attr "href").isSome

/-- All anchors with `href`, each with its enclosing elements. -/
def anchorsWA (doc : NodeList) : List (List Node × Node) :=
  (NodeList.elemsWithAnc [] doc).filter (fun p => isHrefAnchor p.2)

/-- `{"src": img.get("src"), "alt": img.get("alt")}` (shared by both apps). -/
def mkImg (i : Node) : JRec := [("src", i.attr "src"), ("alt", i.attr "alt")]

/-- `form` elements (shared by both apps). -/
def isForm (t : Node) : Bool := t.nameOf == "form"

/-- `(form.get("method") or "GET").upper()`. -/
def pyMethod (f : Node) : String :=
  pyupper (match f.attr "method" with
    | none => "GET"
    | some s => if s == "" then "GET" else s)

/-- `{"action": form.get("action"), "method": …}` (shared by both apps). -/
def mkForm (f : Node) : JRec := [("action", f.attr "action"), ("method", some (pyMethod f))]

/-- `soup.find_all("form")` records (identical loop in both apps). -/
def formRecs (doc : NodeList) : List JRec :=
  ((NodeList.subElems doc).filter isForm).map mkForm

namespace App

/-! Strict policy of `app.py`: fixed tag names plus the single
class-substring checks "gallery" and "modal" on `div` elements. -/

/-- `find_all(["h1", "h2", "h3"])` membership. -/
def isHeading (t : Node) : Bool :=
  t.nameOf == "h1" || t.nameOf == "h2" || t.nameOf == "h3"

/-- `find_all("nav")` membership. -/
def isNav (t : Node) : Bool := t.nameOf == "nav"

/-- `find_all("div", class_=lambda c: c and "gallery" in c.lower())`
membership: BeautifulSoup applies the class filter to each class token. -/
def isGalleryDiv (t : Node) : Bool :=
  t.nameOf == "div" && (t.classesOf).any (fun c => substrB "gallery" (pylower c))

/-- `find_all("div", class_=lambda c: c and "modal" in c.lower())`. -/
def isModalDiv (t : Node) : Bool :=
  t.nameOf == "div" && (t.classesOf).any (fun c => substrB "modal" (pylower c))

/-- `{"tag": tag.name, "text": text[:100]}` for headings and footers. -/
def mkTagText (t : Node) : JRec :=
  [("tag", some t.nameOf), ("text", some (pytake 100 t.getTextS))]

/-- Heading records: elements with non-empty stripped text. -/
def headerRecs (doc : NodeList) : List JRec :=
  (((NodeList.subElems doc).filter isHeading).filter (fun t => t.getTextS != "")).map mkTagText

/-- Footer records. -/
def footerRecs (doc : NodeList) : List JRec :=
  (((NodeList.subElems doc).filter (fun t => t.nameOf == "footer")).filter
    (fun t => t.getTextS != "")).map mkTagText

/-- Paragraph records. -/
def textRecs (doc : NodeList) : List JRec :=
  (((NodeList.subElems doc).filter (fun t => t.nameOf == "p")).filter
    (fun t => t.getTextS != "")).map mkTagText

/-- `{"href": a["href"], "text": a.get_text(strip=True)}`. -/
def mkLink (a : Node) : JRec :=
  [("href", some ((a.attr "href").getD "")), ("text", some a.getTextS)]

/-- Anchors collected from inside each `<nav>` element. -/
def navRecs (doc : NodeList) : List JRec :=
  ((NodeList.subElems doc).filter isNav).flatMap
    (fun nav => ((NodeList.subElems nav.childrenOf).filter isHrefAnchor).map mkLink)

/-- Images inside gallery `div`s. -/
def galleryRecs (doc : NodeList) : List JRec :=
  ((NodeList.subElems doc).filter isGalleryDiv).flatMap
    (fun d => ((NodeList.subElems d.childrenOf).filter (fun i => i.nameOf == "img")).map mkImg)

/-- Images with no gallery-`div` ancestor (`find_parent(...) is None`). -/
def standaloneImgRecs (doc : NodeList) : List JRec :=
  ((NodeList.elemsWithAnc [] doc).filter
    (fun p => p.2.nameOf == "img" && !(p.1.any isGalleryDiv))).map (fun p => mkImg p.2)

/-- Anchors with no `<nav>` ancestor (`a.find_parent("nav") is None`). -/
def linkRecs (doc : NodeList) : List JRec :=
  ((anchorsWA doc).filter (fun p => !(p.1.any isNav))).map (fun p => mkLink p.2)

/-- `find_all(["button", "input"])` membership. -/
def isBtnCandidate (t : Node) : Bool := t.nameOf == "button" || t.nameOf == "input"

/-- `btn.name == "button" or btn.get("type") in {"button", "submit", "reset"}`. -/
def btnKeep (t : Node) : Bool :=
  t.nameOf == "button" || (t.attr "type" == some "button"
    || t.attr "type" == some "submit" || t.attr "type" == some "reset")

/-- `{"html": str(btn)[:120]}`. -/
def buttonRecs (doc : NodeList) : List JRec :=
  (((NodeList.subElems doc).filter isBtnCandidate).filter btnKeep).map
    (fun b => [("html", some (pytake 120 b.toHtml))])

/-- `{"html": str(div)[:120]}` for modal `div`s. -/
def modalRecs (doc : NodeList) : List JRec :=
  ((NodeList.subElems doc).filter isModalDiv).map
    (fun d => [("html", some (pytake 120 d.toHtml))])

/-- `parse_components` of app.py: the ten collection loops, in source order,
appending into a `defaultdict(list)`. -/
def parse_components (doc : NodeList) : Comps :=
  addAll (addAll (addAll (addAll (addAll (addAll (addAll (addAll (addAll (addAll []
    "header" (headerRecs doc))
    "footer" (footerRecs doc))
    "text_block" (textRecs doc))
    "nav_bar" (navRecs doc))
    "image_gallery" (galleryRecs doc))
    "image_gallery" (standaloneImgRecs doc))
    "link_block" (linkRecs doc))
    "button_block" (buttonRecs doc))
    "forms" (formRecs doc))
    "modals" (modalRecs doc)

/-- Normalization of an image record: `img["src"] = img["src"] or ""` then
the same for `alt`. -/
def normImg (r : JRec) : JRec := normField (normField r "src") "alt"

/-- `clean_components` of app.py: per-category deduplication, then the
post-processing loops, whose `clean[...]` reads create the `image_gallery`,
`link_block` and `nav_bar` keys (in that order) when they are absent. -/
def clean_components (m : Comps) : Comps :=
  let cl := dedupPhase m
  let cl := mapField (ensureKey cl "image_gallery") "image_gallery" normImg
  let cl := ensureKey (ensureKey cl "link_block") "nav_bar"
  let cl := mapField cl "link_block" (fun r => normField r "text")
  mapField cl "nav_bar" (fun r => normField r "text")

end App

namespace App1

/-! Loose policy of `app1.py`: tag names or case-insensitive keyword
substrings of the space-joined class list concatenated with the id. -/

/-- `has_kw(tag, *kws)`: the lowercased string
`" ".join(tag.get("class", [])) + " " + (tag.get("id") or "")` contains
one of the keywords. -/
def has_kw (t : Node) (kws : List String) : Bool :=
  kws.any (fun kw =>
    substrB kw (pylower (String.intercalate " " t.classesOf ++ " " ++ (t.attr "id").getD "")))

/-- Header match: semantic tags or `h1`/`h2`/`h3` or keywords. -/
def isHeader (t : Node) : Bool :=
  (t.nameOf == "header" || t.nameOf == "h1" || t.nameOf == "h2" || t.nameOf == "h3")
    || has_kw t ["header", "topbar", "title"]

/-- Footer match. -/
def isFooter (t : Node) : Bool :=
  t.nameOf == "footer" || has_kw t ["footer", "bottom"]

/-- Paragraph match. -/
def isPara (t : Node) : Bool :=
  t.nameOf == "p" || has_kw t ["paragraph", "text-block"]

/-- Navigation-container match: `<nav>` or nav/navbar/menu keywords. -/
def isNav (t : Node) : Bool :=
  t.nameOf == "nav" || has_kw t ["nav", "navbar", "menu"]

/-- Gallery-container match. -/
def isGallery (t : Node) : Bool := has_kw t ["gallery", "carousel", "slider"]

/-- Button match: tag, input type, or keywords. -/
def isButton (t : Node) : Bool :=
  t.nameOf == "button"
    || (t.nameOf == "input" && (t.attr "type" == some "button"
        || t.attr "type" == some "submit" || t.attr "type" == some "reset"))
    || has_kw t ["btn", "button"]

/-- Modal match. -/
def isModal (t : Node) : Bool := has_kw t ["modal", "dialog"]

/-- `{"tag": tag.name, "text": text[:120]}` with space-joined text. -/
def mkTagText (t : Node) : JRec :=
  [("tag", some t.nameOf), ("text", some (pytake 120 t.getTextSp))]

/-- Header records. -/
def headerRecs (doc : NodeList) : List JRec :=
  (((NodeList.subElems doc).filter isHeader).filter (fun t => t.getTextSp != "")).map mkTagText

/-- Footer records. -/
def footerRecs (doc : NodeList) : List JRec :=
  (((NodeList.subElems doc).filter isFooter).filter (fun t => t.getTextSp != "")).map mkTagText

/-- Paragraph records. -/
def textRecs (doc : NodeList) : List JRec :=
  (((NodeList.subElems doc).filter isPara).filter (fun t => t.getTextSp != "")).map mkTagText

/-- `{"href": a["href"], "text": a.get_text(" ", strip=True)}`. -/
def mkLink (a : Node) : JRec :=
  [("href", some ((a.attr "href").getD "")), ("text", some a.getTextSp)]

/-- Anchors collected from inside each nav-matching element. -/
def navRecs (doc : NodeList) : List JRec :=
  ((NodeList.subElems doc).filter isNav).flatMap
    (fun nav => ((NodeList.subElems nav.childrenOf).filter isHrefAnchor).map mkLink)

/-- Images inside gallery-matching containers. -/
def galleryRecs (doc : NodeList) : List JRec :=
  ((NodeList.subElems doc).filter isGallery).flatMap
    (fun d => ((NodeList.subElems d.childrenOf).filter (fun i => i.nameOf == "img")).map mkImg)

/-- Images with no gallery-matching ancestor. -/
def standaloneImgRecs (doc : NodeList) : List JRec :=
  ((NodeList.elemsWithAnc [] doc).filter
    (fun p => p.2.nameOf == "img" && !(p.1.any isGallery))).map (fun p => mkImg p.2)

/-- Anchors collected into `link_block` by app1.py. The guard is
`if not a.find_parent(nav_elems):` with `nav_elems` a list of Tag objects.
BeautifulSoup treats each Tag criterion as a callable filter
(`Tag.__call__` is `find_all`), and such nested `find_all` matching never
succeeds on any ancestor, while an empty criterion list matches the
anchor's first parent (every parsed element has one, at least the soup
object). Hence: when at least one nav-matching element exists,
`find_parent` returns `None` for every anchor and every `href` anchor is
collected, in-nav anchors included; when no nav-matching element exists,
no anchor is collected at all. -/
def linkRecs (doc : NodeList) : List JRec :=
  if ((NodeList.subElems doc).filter isNav).isEmpty then []
  else ((NodeList.subElems doc).filter isHrefAnchor).map mkLink

/-- `{"html": str(btn)[:150]}`. -/
def buttonRecs (doc : NodeList) : List JRec :=
  ((NodeList.subElems doc).filter isButton).map
    (fun b => [("html", some (pytake 150 b.toHtml))])

/-- `{"html": str(div)[:150]}` for modal-matching elements. -/
def modalRecs (doc : NodeList) : List JRec :=
  ((NodeList.subElems doc).filter isModal).map
    (fun d => [("html", some (pytake 150 d.toHtml))])

/-- `parse_components` of app1.py. -/
def parse_components (doc : NodeList) : Comps :=
  addAll (addAll (addAll (addAll (addAll (addAll (addAll (addAll (addAll (addAll []
    "header" (headerRecs doc))
    "footer" (footerRecs doc))
    "text_block" (textRecs doc))
    "nav_bar" (navRecs doc))
    "image_gallery" (galleryRecs doc))
    "image_gallery" (standaloneImgRecs doc))
    "link_block" (linkRecs doc))
    "button_block" (buttonRecs doc))
    "forms" (formRecs doc))
    "modals" (modalRecs doc)

/-- Normalization applied to each kept record: `src`, `alt` and `text`
values that are present are rewritten with `or ""`, in that order. -/
def normRec (r : JRec) : JRec :=
  normField (normField (normField r "src") "alt") "text"

/-- The deduplicate-and-normalize loop of app1.py: the signature is computed
on the record before normalization, and only kept records are normalized. -/
def dedupNorm (seen : List JRec) : List JRec → List JRec
  | [] => []
  | i :: is =>
      if sigOf i ∈ seen then dedupNorm seen is
      else normRec i :: dedupNorm (sigOf i :: seen) is

/-- `clean_components` of app1.py. -/
def clean_components : Comps → Comps
  | [] => []
  | e :: rest =>
      let d := dedupNorm [] e.2
      if d.isEmpty then clean_components rest else (e.1, d) :: clean_components rest

end App1

/-! ### MHTML extraction -/

/-- One part of a parsed MIME message as yielded by `msg.walk()`: its
content type and the result of `get_payload(decode=True)` (raw bytes, or
`none` as returned for multipart container parts). -/
structure MPart where
  contentType : String
  payload : Option (List Nat)
deriving DecidableEq

/-- `extract_html_from_mhtml` (textually identical in app.py and app1.py):
walk the parts, and for the first `text/html` part whose payload is truthy
(present and non-empty) return its decoded text; otherwise `None`.
`decode` abstracts `bytes.decode(errors="ignore")`. -/
def extract_html_from_mhtml (decode : List Nat → String) : List MPart → Option String
  | [] => none
  | p :: ps =>
      if p.contentType == "text/html" then
        match p.payload with
        | some bs => if bs.isEmpty then extract_html_from_mhtml decode ps else some (decode bs)
        | none => extract_html_from_mhtml decode ps
      else extract_html_from_mhtml decode ps

/-! ### Aggregation (app.py `generate_components_json`) -/

/-- The category-to-display-group mapping of `generate_components_json`. -/
def categoryGroup (c : String) : Option String :=
  List.lookup c
    [("header", "Header/Footer"), ("footer", "Header/Footer"),
     ("text_block", "Text Block"), ("image_gallery", "Image Gallery"),
     ("nav_bar", "Navigation Bar"), ("link_block", "Link Block"),
     ("button_block", "Button Block"), ("forms", "Form"), ("modals", "Modal")]

/-- A display group's running `{count, details}` pair. -/
abbrev GroupEntry := Nat × List JRec

/-- `file_obj[group]["count"] += len(items); file_obj[group]["details"].extend(items)`
on a defaultdict starting from `{count: 0, details: []}`. -/
def addGroup (obj : List (String × GroupEntry)) (g : String) (items : List JRec) :
    List (String × GroupEntry) :=
  match obj with
  | [] => [(g, (items.length, items))]
  | e :: rest =>
      if e.1 = g then (e.1, (e.2.1 + items.length, e.2.2 ++ items)) :: rest
      else e :: addGroup rest g items

/-- The per-file aggregation loop of `generate_components_json`. -/
def fileGroups (comps : Comps) : List (String × GroupEntry) :=
  comps.foldl (fun obj e =>
    match categoryGroup e.1 with
    | some g => addGroup obj g e.2
    | none => obj) []

/-- `generate_components_json`: the aggregated view, file by file. -/
def generate_components_json (pages : List (String × Comps)) :
    List (String × List (String × GroupEntry)) :=
  pages.map (fun e => (e.1, fileGroups e.2))

/-! ### Insight requester (app.py `analyze_components_with_gpt`) -/

/-- Python `x or y` on optional strings (used for `x["alt"] or x["src"]`). -/
def pyOr (a b : Option String) : Option String :=
  match a with
  | some s => if s == "" then b else some s
  | none => b

/-- Value of a record field; `none` both for a JSON null value. -/
def fieldOf (r : JRec) (k : String) : Option String :=
  (List.lookup k r).getD none

/-- f-string rendering of a field (`None` prints as the string "None"). -/
def pyShow (v : Option String) : String := v.getD "None"

/-- The trimmed per-file summary object built before prompting. -/
structure CompactPage where
  header : List String
  footer : List String
  text_block : List String
  nav_bar : List (Option String)
  image_gallery : List (Option String)
  link_block : List (Option String)
  button_block : List (Option String)
  forms : List JRec
  modals : List (Option String)
deriving DecidableEq

/-- `f'{x["tag"]}: {x["text"]}'`. -/
def fmtTagText (r : JRec) : String :=
  pyShow (fieldOf r "tag") ++ ": " ++ pyShow (fieldOf r "text")

/-- The compact summary of one file's components. -/
def compactOf (comps : Comps) : CompactPage where
  header := ((getCat comps "header").take 3).map fmtTagText
  footer := ((getCat comps "footer").take 3).map fmtTagText
  text_block := ((getCat comps "text_block").take 3).map fmtTagText
  nav_bar := ((getCat comps "nav_bar").take 3).map (fun r => fieldOf r "text")
  image_gallery := ((getCat comps "image_gallery").take 2).map
    (fun r => pyOr (fieldOf r "alt") (fieldOf r "src"))
  link_block := ((getCat comps "link_block").take 2).map (fun r => fieldOf r "text")
  button_block := ((getCat comps "button_block").take 1).map (fun r => fieldOf r "html")
  forms := getCat comps "forms"
  modals := ((getCat comps "modals").take 1).map (fun r => fieldOf r "html")

/-- Outcome of `analyze_components_with_gpt`: either the fixed message
returned without contacting the service, or a request carrying the compact
per-file summaries that are serialized into the prompt. -/
inductive GptOutcome where
  | noRequest (message : String)
  | request (summaries : List (String × CompactPage))
deriving DecidableEq

/-- `analyze_components_with_gpt`: empty page summary short-circuits with
the fixed message; otherwise a single request is made. -/
def analyze_components_with_gpt (pages : List (String × Comps)) : GptOutcome :=
  if pages.isEmpty then .noRequest "No pages to analyse."
  else .request (pages.map (fun e => (e.1, compactOf e.2)))

/-! ### Derived notions referenced by the claims -/

/-- No `src`, `alt` or `text` field of the record holds the null marker. -/
def recNullFree (r : JRec) : Prop :=
  ∀ kv ∈ r, (kv.1 = "src" ∨ kv.1 = "alt" ∨ kv.1 = "text") → kv.2 ≠ none

/-- No record anywhere in the classification result holds a null `src`,
`alt` or `text` value. -/
def compsNullFree (m : Comps) : Prop :=
  ∀ e ∈ m, ∀ r ∈ e.2, recNullFree r

/-- Length (in characters, as Python `len`) of a record's string field. -/
def fieldLen (r : JRec) (k : String) : Nat :=
  ((fieldOf r k).getD "").length

/-- Total number of records across all categories folding into group `g`. -/
def groupCount : Comps → String → Nat
  | [], _ => 0
  | e :: l, g => (if categoryGroup e.1 == some g then e.2.length else 0) + groupCount l g

/-- Concatenation of the records of all categories folding into group `g`,
in classification order. -/
def groupDetails : Comps → String → List JRec
  | [], _ => []
  | e :: l, g => (if categoryGroup e.1 == some g then e.2 else []) ++ groupDetails l g

/-! ### Concrete documents and values used in scenarios, counterexamples and
witnesses -/

/-- The DOM produced by lxml for
`<h1>Welcome</h1><nav><a href="/home">Home</a></nav><p>Lorem ipsum</p>`. -/
def c1doc : NodeList := NodeList.ofList [Node.el "html" [] [Node.el "body" [] [
  Node.el "h1" [] [Node.tx "Welcome"],
  Node.el "nav" [] [Node.el "a" [("href", "/home")] [Node.tx "Home"]],
  Node.el "p" [] [Node.tx "Lorem ipsum"]]]]

/-- The classification result both policies produce on `c1doc`. -/
def c1Result : Comps :=
  [("header", [[("tag", some "h1"), ("text", some "Welcome")]]),
   ("text_block", [[("tag", some "p"), ("text", some "Lorem ipsum")]]),
   ("nav_bar", [[("href", some "/home"), ("text", some "Home")]])]

/-- The DOM of `<img alt="a"><img src="" alt="a">`: two standalone images
whose records differ only in null-versus-empty `src`. -/
def imgDoc : NodeList := NodeList.ofList [Node.el "html" [] [Node.el "body" [] [
  Node.el "img" [("alt", "a")] [],
  Node.el "img" [("src", ""), ("alt", "a")] []]]]

/-- The classification result of `imgDoc` (both policies): the two image
records have distinct dedup signatures but normalize to the same record. -/
def imgComps : Comps :=
  [("image_gallery", [[("src", none), ("alt", some "a")],
                      [("src", some ""), ("alt", some "a")]])]

/-- The anchor `<a href="/x">X</a>` used in the nav/link witness. -/
def w2a : Node := Node.el "a" [("href", "/x")] [Node.tx "X"]

/-- A `<nav>` containing `w2a`. -/
def w2nav : Node := Node.el "nav" [] [w2a]

/-- `<body>` wrapping the nav. -/
def w2body : Node := Node.el "body" [] [w2nav]

/-- `<html>` wrapping the body. -/
def w2html : Node := Node.el "html" [] [w2body]

/-- Witness document: a single nav link. -/
def w2doc : NodeList := NodeList.ofList [w2html]

/-- What app1.py actually produces on `c1doc`: the claimed categories plus
a `link_block` holding the in-nav anchor as well. -/
def c1ResultLoose : Comps :=
  [("header", [[("tag", some "h1"), ("text", some "Welcome")]]),
   ("text_block", [[("tag", some "p"), ("text", some "Lorem ipsum")]]),
   ("nav_bar", [[("href", some "/home"), ("text", some "Home")]]),
   ("link_block", [[("href", some "/home"), ("text", some "Home")]])]

/-- The anchor `<a href="/y">Y</a>` of the nav-free document. -/
def yA : Node := Node.el "a" [("href", "/y")] [Node.tx "Y"]

/-- A document with an anchor but no nav-matching element. -/
def noNavDoc : NodeList := NodeList.ofList [Node.el "html" [] [Node.el "body" [] [
  Node.el "div" [] [yA]]]]

/-- A null-free classification result for the idempotence witness. -/
def w3m : Comps := [("nav_bar", [[("href", some "/h"), ("text", some "Home")]])]

/-- Witness document with one heading and one button. -/
def w5doc : NodeList := NodeList.ofList [Node.el "html" [] [Node.el "body" [] [
  Node.el "h1" [] [Node.tx "Hi"],
  Node.el "button" [] [Node.tx "Go"]]]]

/-- Witness MIME walk: a plain part followed by an HTML part. -/
def w6parts : List MPart :=
  [⟨"text/plain", some [104]⟩, ⟨"text/html", some [104, 105]⟩]

/-- A one-record category list used in the aggregation witnesses. -/
def w7r : JRec := [("tag", some "h1"), ("text", some "T")]

/-- Witness document: a form with a method but no action attribute. -/
def w10form : Node := Node.el "form" [("method", "post")] [Node.el "input" [("type", "text")] []]

/-- Witness document wrapping `w10form`. -/
def w10doc : NodeList := NodeList.ofList [Node.el "html" [] [Node.el "body" [] [w10form]]]

/-! ## Theorems

First a toolkit of lemmas about the dictionary model, the deduplicator and
the tree traversals; the claim theorems follow at the end. -/

theorem lookup_cons_eq {β : Type} (k : String) (v : β) (l : List (String × β)) :
    List.lookup k ((k, v) :: l) = some v := by
  simp [List.lookup]

theorem lookup_cons_ne {β : Type} {c k : String} (v : β) (l : List (String × β))
    (h : c ≠ k) : List.lookup c ((k, v) :: l) = List.lookup c l := by
  have hb : (c == k) = false := by simp [h]
  simp [List.lookup, hb]

theorem getCat_nil (c : String) : getCat [] c = [] := rfl

theorem getCat_cons_eq (c : String) (v : List JRec) (l : Comps) :
    getCat ((c, v) :: l) c = v := by
  simp [getCat, lookup_cons_eq]

theorem getCat_cons_ne {c k : String} (v : List JRec) (l : Comps) (h : c ≠ k) :
    getCat ((k, v) :: l) c = getCat l c := by
  simp [getCat, lookup_cons_ne _ _ h]

theorem addItem_nil (c : String) (r : JRec) : addItem [] c r = [(c, [r])] := rfl

theorem addItem_cons (k : String) (v : List JRec) (rest : Comps) (c : String) (r : JRec) :
    addItem ((k, v) :: rest) c r =
      if k = c then (k, v ++ [r]) :: rest else (k, v) :: addItem rest c r := rfl

theorem addAll_nil (m : Comps) (c : String) : addAll m c [] = m := rfl

theorem addAll_cons (m : Comps) (c : String) (r : JRec) (rs : List JRec) :
    addAll m c (r :: rs) = addAll (addItem m c r) c rs := rfl

theorem getCat_addItem_self (m : Comps) (c : String) (r : JRec) :
    getCat (addItem m c r) c = getCat m c ++ [r] := by
  induction m with
  | nil => rw [addItem_nil, getCat_cons_eq, getCat_nil]; rfl
  | cons e rest ih =>
      obtain ⟨k, v⟩ := e
      rw [addItem_cons]
      by_cases h : k = c
      · subst h
        rw [if_pos rfl, getCat_cons_eq, getCat_cons_eq]
      · rw [if_neg h, getCat_cons_ne _ _ (Ne.symm h), getCat_cons_ne _ _ (Ne.symm h), ih]

theorem getCat_addItem_ne (m : Comps) {c c' : String} (r : JRec) (h : c' ≠ c) :
    getCat (addItem m c r) c' = getCat m c' := by
  induction m with
  | nil => rw [addItem_nil, getCat_cons_ne _ _ h, getCat_nil]
  | cons e rest ih =>
      obtain ⟨k, v⟩ := e
      rw [addItem_cons]
      by_cases hk : k = c
      · subst hk
        rw [if_pos rfl, getCat_cons_ne _ _ h, getCat_cons_ne _ _ h]
      · rw [if_neg hk]
        by_cases hc : c' = k
        · subst hc
          rw [getCat_cons_eq, getCat_cons_eq]
        · rw [getCat_cons_ne _ _ hc, getCat_cons_ne _ _ hc, ih]

theorem getCat_addAll_self (m : Comps) (c : String) (rs : List JRec) :
    getCat (addAll m c rs) c = getCat m c ++ rs := by
  induction rs generalizing m with
  | nil => rw [addAll_nil]; simp
  | cons r rs ih =>
      rw [addAll_cons, ih, getCat_addItem_self]
      simp

theorem getCat_addAll_ne (m : Comps) {c c' : String} (rs : List JRec) (h : c' ≠ c) :
    getCat (addAll m c rs) c' = getCat m c' := by
  induction rs generalizing m with
  | nil => rw [addAll_nil]
  | cons r rs ih =>
      rw [addAll_cons, ih, getCat_addItem_ne _ _ h]

/-! Characterization of each category of the two parse results. -/

theorem getCat_parseApp_header (doc : NodeList) :
    getCat (App.parse_components doc) "header" = App.headerRecs doc := by
  simp [App.parse_components, getCat_addAll_ne, getCat_addAll_self, getCat_nil]

theorem getCat_parseApp_footer (doc : NodeList) :
    getCat (App.parse_components doc) "footer" = App.footerRecs doc := by
  simp [App.parse_components, getCat_addAll_ne, getCat_addAll_self, getCat_nil]

theorem getCat_parseApp_text (doc : NodeList) :
    getCat (App.parse_components doc) "text_block" = App.textRecs doc := by
  simp [App.parse_components, getCat_addAll_ne, getCat_addAll_self, getCat_nil]

theorem getCat_parseApp_nav (doc : NodeList) :
    getCat (App.parse_components doc) "nav_bar" = App.navRecs doc := by
  simp [App.parse_components, getCat_addAll_ne, getCat_addAll_self, getCat_nil]

theorem getCat_parseApp_img (doc : NodeList) :
    getCat (App.parse_components doc) "image_gallery"
      = App.galleryRecs doc ++ App.standaloneImgRecs doc := by
  simp [App.parse_components, getCat_addAll_ne, getCat_addAll_self, getCat_nil]

theorem getCat_parseApp_link (doc : NodeList) :
    getCat (App.parse_components doc) "link_block" = App.linkRecs doc := by
  simp [App.parse_components, getCat_addAll_ne, getCat_addAll_self, getCat_nil]

theorem getCat_parseApp_button (doc : NodeList) :
    getCat (App.parse_components doc) "button_block" = App.buttonRecs doc := by
  simp [App.parse_components, getCat_addAll_ne, getCat_addAll_self, getCat_nil]

theorem getCat_parseApp_forms (doc : NodeList) :
    getCat (App.parse_components doc) "forms" = formRecs doc := by
  simp [App.parse_components, getCat_addAll_ne, getCat_addAll_self, getCat_nil]

theorem getCat_parseApp_modals (doc : NodeList) :
    getCat (App.parse_components doc) "modals" = App.modalRecs doc := by
  simp [App.parse_components, getCat_addAll_ne, getCat_addAll_self, getCat_nil]

theorem getCat_parseApp_other (doc : NodeList) {c : String}
    (h1 : c ≠ "header") (h2 : c ≠ "footer") (h3 : c ≠ "text_block") (h4 : c ≠ "nav_bar")
    (h5 : c ≠ "image_gallery") (h6 : c ≠ "link_block") (h7 : c ≠ "button_block")
    (h8 : c ≠ "forms") (h9 : c ≠ "modals") :
    getCat (App.parse_components doc) c = [] := by
  unfold App.parse_components
  rw [getCat_addAll_ne _ _ h9, getCat_addAll_ne _ _ h8, getCat_addAll_ne _ _ h7,
      getCat_addAll_ne _ _ h6, getCat_addAll_ne _ _ h5, getCat_addAll_ne _ _ h5,
      getCat_addAll_ne _ _ h4, getCat_addAll_ne _ _ h3, getCat_addAll_ne _ _ h2,
      getCat_addAll_ne _ _ h1, getCat_nil]

theorem getCat_parseApp1_header (doc : NodeList) :
    getCat (App1.parse_components doc) "header" = App1.headerRecs doc := by
  simp [App1.parse_components, getCat_addAll_ne, getCat_addAll_self, getCat_nil]

theorem getCat_parseApp1_footer (doc : NodeList) :
    getCat (App1.parse_components doc) "footer" = App1.footerRecs doc := by
  simp [App1.parse_components, getCat_addAll_ne, getCat_addAll_self, getCat_nil]

theorem getCat_parseApp1_text (doc : NodeList) :
    getCat (App1.parse_components doc) "text_block" = App1.textRecs doc := by
  simp [App1.parse_components, getCat_addAll_ne, getCat_addAll_self, getCat_nil]

theorem getCat_parseApp1_nav (doc : NodeList) :
    getCat (App1.parse_components doc) "nav_bar" = App1.navRecs doc := by
  simp [App1.parse_components, getCat_addAll_ne, getCat_addAll_self, getCat_nil]

theorem getCat_parseApp1_img (doc : NodeList) :
    getCat (App1.parse_components doc) "image_gallery"
      = App1.galleryRecs doc ++ App1.standaloneImgRecs doc := by
  simp [App1.parse_components, getCat_addAll_ne, getCat_addAll_self, getCat_nil]

theorem getCat_parseApp1_link (doc : NodeList) :
    getCat (App1.parse_components doc) "link_block" = App1.linkRecs doc := by
  simp [App1.parse_components, getCat_addAll_ne, getCat_addAll_self, getCat_nil]

theorem getCat_parseApp1_button (doc : NodeList) :
    getCat (App1.parse_components doc) "button_block" = App1.buttonRecs doc := by
  simp [App1.parse_components, getCat_addAll_ne, getCat_addAll_self, getCat_nil]

theorem getCat_parseApp1_forms (doc : NodeList) :
    getCat (App1.parse_components doc) "forms" = formRecs doc := by
  simp [App1.parse_components, getCat_addAll_ne, getCat_addAll_self, getCat_nil]

theorem getCat_parseApp1_modals (doc : NodeList) :
    getCat (App1.parse_components doc) "modals" = App1.modalRecs doc := by
  simp [App1.parse_components, getCat_addAll_ne, getCat_addAll_self, getCat_nil]

theorem getCat_parseApp1_other (doc : NodeList) {c : String}
    (h1 : c ≠ "header") (h2 : c ≠ "footer") (h3 : c ≠ "text_block") (h4 : c ≠ "nav_bar")
    (h5 : c ≠ "image_gallery") (h6 : c ≠ "link_block") (h7 : c ≠ "button_block")
    (h8 : c ≠ "forms") (h9 : c ≠ "modals") :
    getCat (App1.parse_components doc) c = [] := by
  unfold App1.parse_components
  rw [getCat_addAll_ne _ _ h9, getCat_addAll_ne _ _ h8, getCat_addAll_ne _ _ h7,
      getCat_addAll_ne _ _ h6, getCat_addAll_ne _ _ h5, getCat_addAll_ne _ _ h5,
      getCat_addAll_ne _ _ h4, getCat_addAll_ne _ _ h3, getCat_addAll_ne _ _ h2,
      getCat_addAll_ne _ _ h1, getCat_nil]

/-! Deduplication lemmas. -/

theorem dedup_subset {seen : List JRec} {l : List JRec} {r : JRec}
    (h : r ∈ dedup seen l) : r ∈ l := by
  induction l generalizing seen with
  | nil => simp [dedup] at h
  | cons i is ih =>
      rw [dedup] at h
      by_cases hs : sigOf i ∈ seen
      · rw [if_pos hs] at h
        exact List.mem_cons_of_mem _ (ih h)
      · rw [if_neg hs] at h
        rcases List.mem_cons.1 h with h | h
        · exact h ▸ List.mem_cons_self _ _
        · exact List.mem_cons_of_mem _ (ih h)

theorem dedup_not_seen {seen : List JRec} {l : List JRec} {r : JRec}
    (h : r ∈ dedup seen l) : sigOf r ∉ seen := by
  induction l generalizing seen with
  | nil => simp [dedup] at h
  | cons i is ih =>
      rw [dedup] at h
      by_cases hs : sigOf i ∈ seen
      · rw [if_pos hs] at h
        exact ih h
      · rw [if_neg hs] at h
        rcases List.mem_cons.1 h with h | h
        · exact h ▸ hs
        · intro hmem
          exact ih h (List.mem_cons_of_mem _ hmem)

theorem dedup_sig_nodup (seen : List JRec) (l : List JRec) :
    ((dedup seen l).map sigOf).Nodup := by
  induction l generalizing seen with
  | nil => simp [dedup]
  | cons i is ih =>
      rw [dedup]
      by_cases hs : sigOf i ∈ seen
      · rw [if_pos hs]
        exact ih seen
      · rw [if_neg hs]
        refine List.Nodup.cons ?_ (ih (sigOf i :: seen))
        intro hmem
        rcases List.mem_map.1 hmem with ⟨r, hr, hsig⟩
        exact dedup_not_seen hr (hsig ▸ List.mem_cons_self _ _)

theorem dedup_eq_self {seen : List JRec} {l : List JRec}
    (h1 : ∀ r ∈ l, sigOf r ∉ seen) (h2 : (l.map sigOf).Nodup) :
    dedup seen l = l := by
  induction l generalizing seen with
  | nil => rfl
  | cons i is ih =>
      have h2' := h2
      rw [List.map_cons, List.nodup_cons] at h2'
      obtain ⟨hni, hnd⟩ := h2'
      rw [dedup, if_neg (h1 i (List.mem_cons_self _ _))]
      congr 1
      apply ih _ hnd
      intro r hr hmem
      rcases List.mem_cons.1 hmem with hmem | hmem
      · exact hni (hmem ▸ List.mem_map_of_mem sigOf hr)
      · exact h1 r (List.mem_cons_of_mem _ hr) hmem

theorem dedup_idem (l : List JRec) : dedup [] (dedup [] l) = dedup [] l :=
  dedup_eq_self (fun _ _ h => by simp at h) (dedup_sig_nodup [] l)

theorem dedup_nil_iff (l : List JRec) : dedup [] l = [] ↔ l = [] := by
  cases l with
  | nil => simp [dedup]
  | cons i is => simp [dedup]

theorem mem_dedup_of {l : List JRec} {r : JRec}
    (hmem : r ∈ l) (huniq : ∀ r' ∈ l, sigOf r' = sigOf r → r' = r) :
    ∀ seen, sigOf r ∉ seen → r ∈ dedup seen l := by
  induction l with
  | nil => simp at hmem
  | cons i is ih =>
      intro seen hseen
      rw [dedup]
      by_cases hs : sigOf i ∈ seen
      · rw [if_pos hs]
        rcases List.mem_cons.1 hmem with hmem | hmem
        · exact absurd (hmem ▸ hs) hseen
        · exact ih hmem (fun r' hr' => huniq r' (List.mem_cons_of_mem _ hr')) seen hseen
      · rw [if_neg hs]
        by_cases hri : r = i
        · exact hri ▸ List.mem_cons_self _ _
        · rcases List.mem_cons.1 hmem with hmem | hmem
          · exact absurd hmem hri
          · refine List.mem_cons_of_mem _ ?_
            apply ih hmem (fun r' hr' => huniq r' (List.mem_cons_of_mem _ hr'))
            intro hin
            rcases List.mem_cons.1 hin with hin | hin
            · exact hri (huniq i (List.mem_cons_self _ _) hin.symm).symm
            · exact hseen hin

/-! Normalization lemmas. -/

theorem map_id_of {α : Type} {l : List α} {f : α → α} (h : ∀ a ∈ l, f a = a) :
    l.map f = l := by
  induction l with
  | nil => rfl
  | cons a l ih =>
      rw [List.map_cons, h a (List.mem_cons_self _ _), ih (fun b hb => h b (List.mem_cons_of_mem _ hb))]

theorem normField_key_some {r : JRec} {k : String} {kv : String × Option String}
    (h : kv ∈ normField r k) (hk : kv.1 = k) : kv.2 ≠ none := by
  rcases List.mem_map.1 h with ⟨kv0, _, heq⟩
  by_cases h0 : kv0.1 = k
  · rw [if_pos h0] at heq
    rw [← heq]
    simp
  · rw [if_neg h0] at heq
    apply absurd _ h0
    rw [← hk, ← heq]

theorem normField_mem_ne {r : JRec} {k : String} {kv : String × Option String}
    (h : kv ∈ normField r k) (hk : kv.1 ≠ k) : kv ∈ r := by
  rcases List.mem_map.1 h with ⟨kv0, hmem, heq⟩
  by_cases h0 : kv0.1 = k
  · rw [if_pos h0] at heq
    apply absurd _ hk
    rw [← heq]
    exact h0
  · rw [if_neg h0] at heq
    exact heq ▸ hmem

theorem normField_id_of {r : JRec} {k : String}
    (h : ∀ kv ∈ r, kv.1 = k → kv.2 ≠ none) : normField r k = r := by
  apply map_id_of
  intro kv hkv
  by_cases h0 : kv.1 = k
  · rw [if_pos h0]
    rcases hv : kv.2 with _ | s
    · exact absurd hv (h kv hkv h0)
    · show (kv.1, some s) = kv
      rw [← hv]
  · rw [if_neg h0]

/-! `dedupPhase` lemmas. -/

theorem dedupPhase_nil : dedupPhase [] = [] := rfl

theorem dedupPhase_cons (e : String × List JRec) (rest : Comps) :
    dedupPhase (e :: rest) =
      if (dedup [] e.2).isEmpty then dedupPhase rest
      else (e.1, dedup [] e.2) :: dedupPhase rest := rfl

theorem lookup_dedupPhase_none {m : Comps} {c : String}
    (h : c ∉ m.map Prod.fst) : List.lookup c (dedupPhase m) = none := by
  induction m with
  | nil => rfl
  | cons e rest ih =>
      have hc : c ≠ e.1 := by
        intro hc
        exact h (by simp [hc])
      have hrest : c ∉ rest.map Prod.fst := by
        intro hmem
        exact h (by simp [hmem])
      rw [dedupPhase_cons]
      by_cases hd : (dedup [] e.2).isEmpty
      · rw [if_pos hd]
        exact ih hrest
      · rw [if_neg hd, lookup_cons_ne _ _ hc]
        exact ih hrest

theorem getCat_dedupPhase {m : Comps} (hnd : (m.map Prod.fst).Nodup) (c : String) :
    getCat (dedupPhase m) c = dedup [] (getCat m c) := by
  induction m with
  | nil => simp [dedupPhase_nil, getCat_nil, dedup]
  | cons e rest ih =>
      have hnd' := hnd
      rw [List.map_cons, List.nodup_cons] at hnd'
      obtain ⟨hni, hndr⟩ := hnd'
      obtain ⟨k, v⟩ := e
      rw [dedupPhase_cons]
      by_cases hc : c = k
      · subst hc
        rw [getCat_cons_eq]
        by_cases hd : (dedup [] v).isEmpty
        · rw [if_pos hd]
          have hv : dedup [] v = [] := by simpa using hd
          rw [hv]
          show (List.lookup c (dedupPhase rest)).getD [] = []
          rw [lookup_dedupPhase_none hni]
          rfl
        · rw [if_neg hd]
          show getCat ((c, dedup [] v) :: dedupPhase rest) c = dedup [] v
          rw [getCat_cons_eq]
      · rw [getCat_cons_ne _ _ hc]
        by_cases hd : (dedup [] v).isEmpty
        · rw [if_pos hd]
          exact ih hndr
        · rw [if_neg hd]
          show getCat ((k, dedup [] v) :: dedupPhase rest) c = dedup [] (getCat rest c)
          rw [getCat_cons_ne _ _ hc]
          exact ih hndr

theorem mem_dedupPhase {m : Comps} {e : String × List JRec} (h : e ∈ dedupPhase m) :
    ∃ items, (e.1, items) ∈ m ∧ e.2 = dedup [] items ∧ e.2 ≠ [] := by
  induction m with
  | nil => simp [dedupPhase_nil] at h
  | cons e0 rest ih =>
      rw [dedupPhase_cons] at h
      by_cases hd : (dedup [] e0.2).isEmpty
      · rw [if_pos hd] at h
        rcases ih h with ⟨items, h1, h2, h3⟩
        exact ⟨items, List.mem_cons_of_mem _ h1, h2, h3⟩
      · rw [if_neg hd] at h
        rcases List.mem_cons.1 h with h | h
        · refine ⟨e0.2, ?_, ?_, ?_⟩
          · rw [h]
            show (e0.1, e0.2) ∈ e0 :: rest
            exact List.mem_cons_self _ _
          · rw [h]
          · rw [h]
            simpa using hd
        · rcases ih h with ⟨items, h1, h2, h3⟩
          exact ⟨items, List.mem_cons_of_mem _ h1, h2, h3⟩

/-! Key-set lemmas: the parse results bind each category at most once. -/

theorem keys_addItem (m : Comps) (c : String) (r : JRec) :
    (addItem m c r).map Prod.fst =
      if c ∈ m.map Prod.fst then m.map Prod.fst else m.map Prod.fst ++ [c] := by
  induction m with
  | nil => simp [addItem_nil]
  | cons e rest ih =>
      obtain ⟨k, v⟩ := e
      rw [addItem_cons]
      by_cases h : k = c
      · subst h
        simp
      · rw [if_neg h]
        by_cases hc : c ∈ (rest.map Prod.fst)
        · have : c ∈ ((k, v) :: rest).map Prod.fst := by simp [hc]
          rw [if_pos this]
          simp [ih, hc]
        · have hck : ¬c = k := fun hh => h hh.symm
          have : c ∉ ((k, v) :: rest).map Prod.fst := by
            simp [hc, hck]
          rw [if_neg this]
          simp [ih, hc]

theorem keys_nodup_addItem {m : Comps} (c : String) (r : JRec)
    (h : (m.map Prod.fst).Nodup) : ((addItem m c r).map Prod.fst).Nodup := by
  rw [keys_addItem]
  by_cases hc : c ∈ m.map Prod.fst
  · rw [if_pos hc]
    exact h
  · rw [if_neg hc]
    simp [List.nodup_append, h, hc]

theorem keys_nodup_addAll {m : Comps} {c : String} {rs : List JRec}
    (h : (m.map Prod.fst).Nodup) : ((addAll m c rs).map Prod.fst).Nodup := by
  induction rs generalizing m with
  | nil => exact h
  | cons r rs ih =>
      rw [addAll_cons]
      exact ih (keys_nodup_addItem c r h)

theorem parseApp_keys_nodup (doc : NodeList) :
    ((App.parse_components doc).map Prod.fst).Nodup := by
  unfold App.parse_components
  repeat apply keys_nodup_addAll
  simp

theorem parseApp1_keys_nodup (doc : NodeList) :
    ((App1.parse_components doc).map Prod.fst).Nodup := by
  unfold App1.parse_components
  repeat apply keys_nodup_addAll
  simp

/-! `ensureKey` and `mapField` lemmas. -/

theorem getCat_append_empty (m : Comps) (c c' : String) :
    getCat (m ++ [(c, [])]) c' = getCat m c' := by
  induction m with
  | nil =>
      by_cases h : c' = c
      · subst h
        rw [List.nil_append, getCat_cons_eq, getCat_nil]
      · rw [List.nil_append, getCat_cons_ne _ _ h]
  | cons e rest ih =>
      obtain ⟨k, v⟩ := e
      by_cases h : c' = k
      · subst h
        rw [List.cons_append, getCat_cons_eq, getCat_cons_eq]
      · rw [List.cons_append, getCat_cons_ne _ _ h, getCat_cons_ne _ _ h, ih]

theorem getCat_ensureKey (m : Comps) (c c' : String) :
    getCat (ensureKey m c) c' = getCat m c' := by
  unfold ensureKey
  rcases List.lookup c m with _ | v
  · exact getCat_append_empty m c c'
  · rfl

theorem getCat_mapField_self (m : Comps) (c : String) (f : JRec → JRec) :
    getCat (mapField m c f) c = (getCat m c).map f := by
  induction m with
  | nil => simp [mapField, getCat_nil]
  | cons e rest ih =>
      obtain ⟨k, v⟩ := e
      by_cases h : k = c
      · subst h
        show getCat ((if k = k then (k, v.map f) else (k, v)) :: mapField rest k f) k
          = (getCat ((k, v) :: rest) k).map f
        rw [if_pos rfl, getCat_cons_eq, getCat_cons_eq]
      · show getCat ((if k = c then (k, v.map f) else (k, v)) :: mapField rest c f) c
          = (getCat ((k, v) :: rest) c).map f
        rw [if_neg h, getCat_cons_ne _ _ (fun hh => h hh.symm),
            getCat_cons_ne _ _ (fun hh => h hh.symm), ih]

theorem getCat_mapField_ne (m : Comps) {c c' : String} (f : JRec → JRec) (h : c' ≠ c) :
    getCat (mapField m c f) c' = getCat m c' := by
  induction m with
  | nil => simp [mapField, getCat_nil]
  | cons e rest ih =>
      obtain ⟨k, v⟩ := e
      by_cases hk : k = c
      · subst hk
        show getCat ((if k = k then (k, v.map f) else (k, v)) :: mapField rest k f) c'
          = getCat ((k, v) :: rest) c'
        rw [if_pos rfl, getCat_cons_ne _ _ h, getCat_cons_ne _ _ h, ih]
      · show getCat ((if k = c then (k, v.map f) else (k, v)) :: mapField rest c f) c'
          = getCat ((k, v) :: rest) c'
        rw [if_neg hk]
        by_cases hck : c' = k
        · subst hck
          rw [getCat_cons_eq, getCat_cons_eq]
        · rw [getCat_cons_ne _ _ hck, getCat_cons_ne _ _ hck, ih]

/-! Characterization of `clean_components` (app.py) per category. -/

theorem getCat_cleanApp_other {m : Comps} (hnd : (m.map Prod.fst).Nodup) {c : String}
    (h1 : c ≠ "image_gallery") (h2 : c ≠ "link_block") (h3 : c ≠ "nav_bar") :
    getCat (App.clean_components m) c = dedup [] (getCat m c) := by
  unfold App.clean_components
  rw [getCat_mapField_ne _ _ h3, getCat_mapField_ne _ _ h2, getCat_ensureKey,
      getCat_ensureKey, getCat_mapField_ne _ _ h1, getCat_ensureKey, getCat_dedupPhase hnd]

theorem getCat_cleanApp_img {m : Comps} (hnd : (m.map Prod.fst).Nodup) :
    getCat (App.clean_components m) "image_gallery"
      = (dedup [] (getCat m "image_gallery")).map App.normImg := by
  unfold App.clean_components
  rw [getCat_mapField_ne _ _ (by decide), getCat_mapField_ne _ _ (by decide),
      getCat_ensureKey, getCat_ensureKey, getCat_mapField_self, getCat_ensureKey,
      getCat_dedupPhase hnd]

theorem getCat_cleanApp_link {m : Comps} (hnd : (m.map Prod.fst).Nodup) :
    getCat (App.clean_components m) "link_block"
      = (dedup [] (getCat m "link_block")).map (fun r => normField r "text") := by
  unfold App.clean_components
  rw [getCat_mapField_ne _ _ (by decide), getCat_mapField_self, getCat_ensureKey,
      getCat_ensureKey, getCat_mapField_ne _ _ (by decide), getCat_ensureKey,
      getCat_dedupPhase hnd]

theorem getCat_cleanApp_nav {m : Comps} (hnd : (m.map Prod.fst).Nodup) :
    getCat (App.clean_components m) "nav_bar"
      = (dedup [] (getCat m "nav_bar")).map (fun r => normField r "text") := by
  unfold App.clean_components
  rw [getCat_mapField_self, getCat_mapField_ne _ _ (by decide), getCat_ensureKey,
      getCat_ensureKey, getCat_mapField_ne _ _ (by decide), getCat_ensureKey,
      getCat_dedupPhase hnd]

/-! Characterization of `clean_components` (app1.py). -/

theorem clean1_nil : App1.clean_components [] = [] := rfl

theorem clean1_cons (e : String × List JRec) (rest : Comps) :
    App1.clean_components (e :: rest) =
      if (App1.dedupNorm [] e.2).isEmpty then App1.clean_components rest
      else (e.1, App1.dedupNorm [] e.2) :: App1.clean_components rest := rfl

theorem mem_dedupNorm {seen : List JRec} {l : List JRec} {r : JRec}
    (h : r ∈ App1.dedupNorm seen l) : ∃ r0 ∈ l, r = App1.normRec r0 := by
  induction l generalizing seen with
  | nil => simp [App1.dedupNorm] at h
  | cons i is ih =>
      rw [App1.dedupNorm] at h
      by_cases hs : sigOf i ∈ seen
      · rw [if_pos hs] at h
        rcases ih h with ⟨r0, hr0, hr⟩
        exact ⟨r0, List.mem_cons_of_mem _ hr0, hr⟩
      · rw [if_neg hs] at h
        rcases List.mem_cons.1 h with h | h
        · exact ⟨i, List.mem_cons_self _ _, h⟩
        · rcases ih h with ⟨r0, hr0, hr⟩
          exact ⟨r0, List.mem_cons_of_mem _ hr0, hr⟩

theorem mem_getCat_clean1 {m : Comps} {c : String} {r : JRec}
    (h : r ∈ getCat (App1.clean_components m) c) : ∃ r0, r = App1.normRec r0 := by
  induction m with
  | nil => simp [clean1_nil, getCat_nil] at h
  | cons e rest ih =>
      rw [clean1_cons] at h
      by_cases hd : (App1.dedupNorm [] e.2).isEmpty
      · rw [if_pos hd] at h
        exact ih h
      · rw [if_neg hd] at h
        obtain ⟨k, v⟩ := e
        have h' : r ∈ getCat ((k, App1.dedupNorm [] v) :: App1.clean_components rest) c := h
        by_cases hc : c = k
        · subst hc
          rw [getCat_cons_eq] at h'
          rcases mem_dedupNorm h' with ⟨r0, _, hr⟩
          exact ⟨r0, hr⟩
        · rw [getCat_cons_ne _ _ hc] at h'
          exact ih h' 

theorem lookup_clean1_none {m : Comps} {c : String}
    (h : c ∉ m.map Prod.fst) : List.lookup c (App1.clean_components m) = none := by
  induction m with
  | nil => rfl
  | cons e rest ih =>
      have hc : c ≠ e.1 := by
        intro hc
        exact h (by simp [hc])
      have hrest : c ∉ rest.map Prod.fst := by
        intro hmem
        exact h (by simp [hmem])
      rw [clean1_cons]
      by_cases hd : (App1.dedupNorm [] e.2).isEmpty
      · rw [if_pos hd]
        exact ih hrest
      · rw [if_neg hd, lookup_cons_ne _ _ hc]
        exact ih hrest

theorem getCat_clean1 {m : Comps} (hnd : (m.map Prod.fst).Nodup) (c : String) :
    getCat (App1.clean_components m) c = App1.dedupNorm [] (getCat m c) := by
  induction m with
  | nil => simp [clean1_nil, getCat_nil, App1.dedupNorm]
  | cons e rest ih =>
      have hnd' := hnd
      rw [List.map_cons, List.nodup_cons] at hnd'
      obtain ⟨hni, hndr⟩ := hnd'
      obtain ⟨k, v⟩ := e
      rw [clean1_cons]
      by_cases hc : c = k
      · subst hc
        rw [getCat_cons_eq]
        by_cases hd : (App1.dedupNorm [] v).isEmpty
        · rw [if_pos hd]
          have hv : App1.dedupNorm [] v = [] := by simpa using hd
          rw [hv]
          show (List.lookup c (App1.clean_components rest)).getD [] = []
          rw [lookup_clean1_none hni]
          rfl
        · rw [if_neg hd]
          show getCat ((c, App1.dedupNorm [] v) :: App1.clean_components rest) c
            = App1.dedupNorm [] v
          rw [getCat_cons_eq]
      · rw [getCat_cons_ne _ _ hc]
        by_cases hd : (App1.dedupNorm [] v).isEmpty
        · rw [if_pos hd]
          exact ih hndr
        · rw [if_neg hd]
          show getCat ((k, App1.dedupNorm [] v) :: App1.clean_components rest) c
            = App1.dedupNorm [] (getCat rest c)
          rw [getCat_cons_ne _ _ hc]
          exact ih hndr

/-! Idempotence machinery for the deduplicator/normalizer. -/

theorem dedupPhase_append (a b : Comps) :
    dedupPhase (a ++ b) = dedupPhase a ++ dedupPhase b := by
  induction a with
  | nil => rfl
  | cons e rest ih =>
      rw [List.cons_append, dedupPhase_cons, dedupPhase_cons]
      by_cases hd : (dedup [] e.2).isEmpty
      · rw [if_pos hd, if_pos hd, ih]
      · rw [if_neg hd, if_neg hd, ih, List.cons_append]

theorem dedupPhase_empty_vals {b : Comps} (h : ∀ e ∈ b, e.2 = []) :
    dedupPhase b = [] := by
  induction b with
  | nil => rfl
  | cons e rest ih =>
      rw [dedupPhase_cons, h e (List.mem_cons_self _ _)]
      rw [if_pos (by rfl)]
      exact ih (fun e' he' => h e' (List.mem_cons_of_mem _ he'))

theorem dedupPhase_eq_self {m : Comps}
    (h : ∀ e ∈ m, dedup [] e.2 = e.2 ∧ e.2 ≠ []) : dedupPhase m = m := by
  induction m with
  | nil => rfl
  | cons e rest ih =>
      obtain ⟨h1, h2⟩ := h e (List.mem_cons_self _ _)
      rw [dedupPhase_cons, h1, if_neg (by simpa using h2)]
      rw [ih (fun e' he' => h e' (List.mem_cons_of_mem _ he'))]

theorem dedupPhase_idem (m : Comps) : dedupPhase (dedupPhase m) = dedupPhase m := by
  apply dedupPhase_eq_self
  intro e he
  rcases mem_dedupPhase he with ⟨items, _, h2, h3⟩
  exact ⟨h2 ▸ dedup_idem items, h3⟩

theorem ensureKey_split (m : Comps) (c : String) :
    ∃ E, ensureKey m c = m ++ E ∧ ∀ e ∈ E, e.2 = ([] : List JRec) := by
  unfold ensureKey
  rcases List.lookup c m with _ | v
  · exact ⟨[(c, [])], rfl, by simp⟩
  · exact ⟨[], by simp, by simp⟩

theorem mapField_id_of {m : Comps} {c : String} {f : JRec → JRec}
    (h : ∀ e ∈ m, e.1 = c → ∀ r ∈ e.2, f r = r) : mapField m c f = m := by
  apply map_id_of
  intro e he
  by_cases hc : e.1 = c
  · rw [if_pos hc, map_id_of (h e he hc)]
  · rw [if_neg hc]

/-- For null-free input, `clean_components` (app.py) is deduplication plus
creation of the three forced keys. -/
theorem cleanApp_nf {m : Comps} (h : compsNullFree m) :
    App.clean_components m
      = ensureKey (ensureKey (ensureKey (dedupPhase m) "image_gallery") "link_block")
          "nav_bar" := by
  have hrec : ∀ e ∈ dedupPhase m, ∀ r ∈ e.2, recNullFree r := by
    intro e he r hr
    rcases mem_dedupPhase he with ⟨items, h1, h2, _⟩
    exact h _ h1 r (dedup_subset (h2 ▸ hr))
  have hens : ∀ cc : String, ∀ e ∈ ensureKey (dedupPhase m) cc, ∀ r ∈ e.2, recNullFree r := by
    intro cc e he r hr
    rcases ensureKey_split (dedupPhase m) cc with ⟨E, hE, hEe⟩
    rw [hE] at he
    rcases List.mem_append.1 he with he | he
    · exact hrec e he r hr
    · rw [hEe e he] at hr
      simp at hr
  show mapField (mapField (ensureKey (ensureKey
        (mapField (ensureKey (dedupPhase m) "image_gallery") "image_gallery" App.normImg)
        "link_block") "nav_bar") "link_block" (fun r => normField r "text")) "nav_bar"
      (fun r => normField r "text")
    = ensureKey (ensureKey (ensureKey (dedupPhase m) "image_gallery") "link_block") "nav_bar"
  rw [mapField_id_of (f := App.normImg) ?himg]
  case himg =>
    intro e he _ r hr
    unfold App.normImg
    rw [normField_id_of (fun kv hkv hk => hens _ e he r hr kv hkv (Or.inl hk)),
        normField_id_of (fun kv hkv hk => hens _ e he r hr kv hkv (Or.inr (Or.inl hk)))]
  rcases ensureKey_split (ensureKey (ensureKey (dedupPhase m) "image_gallery") "link_block")
      "nav_bar" with ⟨E2, hE2, hE2e⟩
  rcases ensureKey_split (ensureKey (dedupPhase m) "image_gallery") "link_block"
      with ⟨E1, hE1, hE1e⟩
  rcases ensureKey_split (dedupPhase m) "image_gallery" with ⟨E0, hE0, hE0e⟩
  have hall : ∀ e ∈ ensureKey (ensureKey (ensureKey (dedupPhase m) "image_gallery")
      "link_block") "nav_bar", ∀ r ∈ e.2, recNullFree r := by
    intro e he r hr
    rw [hE2, hE1, hE0] at he
    rcases List.mem_append.1 he with he | he
    · rcases List.mem_append.1 he with he | he
      · rcases List.mem_append.1 he with he | he
        · exact hrec e he r hr
        · rw [hE0e e he] at hr
          simp at hr
      · rw [hE1e e he] at hr
        simp at hr
    · rw [hE2e e he] at hr
      simp at hr
  rw [mapField_id_of (c := "link_block") (fun e he _ r hr => normField_id_of
        (fun kv hkv hk => hall e he r hr kv hkv (Or.inr (Or.inr hk)))),
      mapField_id_of (c := "nav_bar") (fun e he _ r hr => normField_id_of
        (fun kv hkv hk => hall e he r hr kv hkv (Or.inr (Or.inr hk))))]

theorem normRec_id_of {r : JRec} (h : recNullFree r) : App1.normRec r = r := by
  unfold App1.normRec
  rw [normField_id_of (fun kv hkv hk => h kv hkv (Or.inl hk)),
      normField_id_of (fun kv hkv hk => h kv hkv (Or.inr (Or.inl hk))),
      normField_id_of (fun kv hkv hk => h kv hkv (Or.inr (Or.inr hk)))]

theorem dedupNorm_eq_dedup {l : List JRec} (h : ∀ r ∈ l, App1.normRec r = r) :
    ∀ seen, App1.dedupNorm seen l = dedup seen l := by
  induction l with
  | nil => intro seen; rfl
  | cons i is ih =>
      intro seen
      rw [App1.dedupNorm, dedup]
      by_cases hs : sigOf i ∈ seen
      · rw [if_pos hs, if_pos hs, ih (fun r hr => h r (List.mem_cons_of_mem _ hr))]
      · rw [if_neg hs, if_neg hs, h i (List.mem_cons_self _ _),
            ih (fun r hr => h r (List.mem_cons_of_mem _ hr))]

/-- For null-free input, `clean_components` (app1.py) is exactly the shared
deduplication pass. -/
theorem clean1_nf {m : Comps} (h : compsNullFree m) :
    App1.clean_components m = dedupPhase m := by
  induction m with
  | nil => rfl
  | cons e rest ih =>
      have hd : App1.dedupNorm [] e.2 = dedup [] e.2 :=
        dedupNorm_eq_dedup (fun r hr => normRec_id_of (h e (List.mem_cons_self _ _) r hr)) []
      rw [clean1_cons, dedupPhase_cons, hd,
          ih (fun e' he' r hr => h e' (List.mem_cons_of_mem _ he') r hr)]

theorem compsNullFree_dedupPhase {m : Comps} (h : compsNullFree m) :
    compsNullFree (dedupPhase m) := by
  intro e he r hr
  rcases mem_dedupPhase he with ⟨items, h1, h2, _⟩
  exact h _ h1 r (dedup_subset (h2 ▸ hr))

theorem compsNullFree_ensureKey {m : Comps} (c : String) (h : compsNullFree m) :
    compsNullFree (ensureKey m c) := by
  intro e he r hr
  rcases ensureKey_split m c with ⟨E, hE, hEe⟩
  rw [hE] at he
  rcases List.mem_append.1 he with he | he
  · exact h e he r hr
  · rw [hEe e he] at hr
    simp at hr

theorem dedupPhase_ensure3 (D : Comps) (hD : dedupPhase D = D) :
    dedupPhase (ensureKey (ensureKey (ensureKey D "image_gallery") "link_block") "nav_bar")
      = D := by
  rcases ensureKey_split D "image_gallery" with ⟨E0, hE0, hE0e⟩
  rcases ensureKey_split (ensureKey D "image_gallery") "link_block" with ⟨E1, hE1, hE1e⟩
  rcases ensureKey_split (ensureKey (ensureKey D "image_gallery") "link_block") "nav_bar"
    with ⟨E2, hE2, hE2e⟩
  rw [hE2, hE1, hE0, List.append_assoc, List.append_assoc, dedupPhase_append, hD,
      dedupPhase_empty_vals ?hempty]
  · simp
  case hempty =>
    intro e he
    rcases List.mem_append.1 he with he | he
    · exact hE0e e he
    · rcases List.mem_append.1 he with he | he
      · exact hE1e e he
      · exact hE2e e he

/-! Tree lemmas relating elements, ancestors and descendants. -/

mutual
theorem nodeMapSndElemsAnc (anc : List Node) (n : Node) :
    (Node.elemsWithAnc anc n).map Prod.snd = Node.subElems n := by
  cases n with
  | text s => rfl
  | elem nm a cs =>
      rw [Node.elemsWithAnc, Node.subElems, List.map_cons,
          nodeListMapSndElemsAnc (Node.elem nm a cs :: anc) cs]
theorem nodeListMapSndElemsAnc (anc : List Node) (l : NodeList) :
    (NodeList.elemsWithAnc anc l).map Prod.snd = NodeList.subElems l := by
  cases l with
  | nil => rfl
  | cons h t =>
      rw [NodeList.elemsWithAnc, NodeList.subElems, List.map_append,
          nodeMapSndElemsAnc anc h, nodeListMapSndElemsAnc anc t]
end

theorem nodeSndMemSubElems {anc : List Node} {n : Node} {p : List Node × Node}
    (hp : p ∈ Node.elemsWithAnc anc n) : p.2 ∈ Node.subElems n := by
  rw [← nodeMapSndElemsAnc anc n]
  exact List.mem_map_of_mem Prod.snd hp

theorem nodeListSndMemSubElems {anc : List Node} {l : NodeList} {p : List Node × Node}
    (hp : p ∈ NodeList.elemsWithAnc anc l) : p.2 ∈ NodeList.subElems l := by
  rw [← nodeListMapSndElemsAnc anc l]
  exact List.mem_map_of_mem Prod.snd hp

mutual
theorem nodeAncStruct (anc : List Node) (n : Node) (p : List Node × Node)
    (hp : p ∈ Node.elemsWithAnc anc n) :
    ∃ pre, p.1 = pre ++ anc ∧
      ∀ a ∈ pre, a ∈ Node.subElems n ∧ p.2 ∈ NodeList.subElems a.childrenOf := by
  cases n with
  | text s => exact absurd hp (by rw [Node.elemsWithAnc]; simp)
  | elem nm at0 cs =>
      rw [Node.elemsWithAnc] at hp
      rcases List.mem_cons.1 hp with hp | hp
      · refine ⟨[], by rw [hp]; rfl, ?_⟩
        intro a ha
        simp at ha
      · rcases nodeListAncStruct (Node.elem nm at0 cs :: anc) cs p hp with ⟨pre, h1, h2⟩
        refine ⟨pre ++ [Node.elem nm at0 cs], ?_, ?_⟩
        · rw [h1, List.append_assoc, List.singleton_append]
        · intro a ha
          rcases List.mem_append.1 ha with ha | ha
          · obtain ⟨ha1, ha2⟩ := h2 a ha
            exact ⟨by rw [Node.subElems]; exact List.mem_cons_of_mem _ ha1, ha2⟩
          · rw [List.mem_singleton] at ha
            subst ha
            refine ⟨by rw [Node.subElems]; exact List.mem_cons_self _ _, ?_⟩
            show p.2 ∈ NodeList.subElems (Node.elem nm at0 cs).childrenOf
            rw [Node.childrenOf]
            exact nodeListSndMemSubElems hp
theorem nodeListAncStruct (anc : List Node) (l : NodeList) (p : List Node × Node)
    (hp : p ∈ NodeList.elemsWithAnc anc l) :
    ∃ pre, p.1 = pre ++ anc ∧
      ∀ a ∈ pre, a ∈ NodeList.subElems l ∧ p.2 ∈ NodeList.subElems a.childrenOf := by
  cases l with
  | nil => exact absurd hp (by rw [NodeList.elemsWithAnc]; simp)
  | cons h t =>
      rw [NodeList.elemsWithAnc] at hp
      rcases List.mem_append.1 hp with hp | hp
      · rcases nodeAncStruct anc h p hp with ⟨pre, h1, h2⟩
        refine ⟨pre, h1, ?_⟩
        intro a ha
        obtain ⟨ha1, ha2⟩ := h2 a ha
        exact ⟨by rw [NodeList.subElems]; exact List.mem_append_left _ ha1, ha2⟩
      · rcases nodeListAncStruct anc t p hp with ⟨pre, h1, h2⟩
        refine ⟨pre, h1, ?_⟩
        intro a ha
        obtain ⟨ha1, ha2⟩ := h2 a ha
        exact ⟨by rw [NodeList.subElems]; exact List.mem_append_right _ ha1, ha2⟩
end

/-! Aggregation lemmas. -/

theorem addGroup_nil (g : String) (items : List JRec) :
    addGroup [] g items = [(g, (items.length, items))] := rfl

theorem addGroup_cons (k : String) (v : GroupEntry) (rest : List (String × GroupEntry))
    (g : String) (items : List JRec) :
    addGroup ((k, v) :: rest) g items =
      if k = g then (k, (v.1 + items.length, v.2 ++ items)) :: rest
      else (k, v) :: addGroup rest g items := rfl

theorem lookup_addGroup_some {obj : List (String × GroupEntry)} {g : String} {nd : GroupEntry}
    (items : List JRec) (h : List.lookup g obj = some nd) :
    List.lookup g (addGroup obj g items) = some (nd.1 + items.length, nd.2 ++ items) := by
  induction obj with
  | nil => simp [List.lookup] at h
  | cons e rest ih =>
      obtain ⟨k, v⟩ := e
      rw [addGroup_cons]
      by_cases hk : k = g
      · subst hk
        rw [lookup_cons_eq] at h
        injection h with h
        rw [if_pos rfl, lookup_cons_eq, h]
      · rw [lookup_cons_ne _ _ (fun hh => hk hh.symm)] at h
        rw [if_neg hk, lookup_cons_ne _ _ (fun hh => hk hh.symm), ih h]

theorem lookup_addGroup_none {obj : List (String × GroupEntry)} {g : String}
    (items : List JRec) (h : List.lookup g obj = none) :
    List.lookup g (addGroup obj g items) = some (items.length, items) := by
  induction obj with
  | nil => rw [addGroup_nil, lookup_cons_eq]
  | cons e rest ih =>
      obtain ⟨k, v⟩ := e
      rw [addGroup_cons]
      by_cases hk : k = g
      · subst hk
        rw [lookup_cons_eq] at h
        exact absurd h (by simp)
      · rw [lookup_cons_ne _ _ (fun hh => hk hh.symm)] at h
        rw [if_neg hk, lookup_cons_ne _ _ (fun hh => hk hh.symm), ih h]

theorem lookup_addGroup_ne {obj : List (String × GroupEntry)} {g g' : String}
    (items : List JRec) (h : g' ≠ g) :
    List.lookup g' (addGroup obj g items) = List.lookup g' obj := by
  induction obj with
  | nil => rw [addGroup_nil, lookup_cons_ne _ _ h]
  | cons e rest ih =>
      obtain ⟨k, v⟩ := e
      rw [addGroup_cons]
      by_cases hk : k = g
      · subst hk
        rw [if_pos rfl]
        rw [lookup_cons_ne _ _ h, lookup_cons_ne _ _ h]
      · rw [if_neg hk]
        by_cases hg : g' = k
        · subst hg
          rw [lookup_cons_eq, lookup_cons_eq]
        · rw [lookup_cons_ne _ _ hg, lookup_cons_ne _ _ hg, ih]

theorem lookup_fileGroups_fold (l : Comps) (g : String) :
    ∀ obj, List.lookup g (l.foldl (fun obj e =>
        match categoryGroup e.1 with
        | some gg => addGroup obj gg e.2
        | none => obj) obj) =
      match List.lookup g obj with
      | some nd => some (nd.1 + groupCount l g, nd.2 ++ groupDetails l g)
      | none =>
          if l.any (fun e => categoryGroup e.1 == some g) then
            some (groupCount l g, groupDetails l g)
          else none := by
  induction l with
  | nil =>
      intro obj
      rcases hobj : List.lookup g obj with _ | nd
      · simp [hobj, groupCount, groupDetails]
      · simp [hobj, groupCount, groupDetails]
  | cons e l ih =>
      intro obj
      have hany : (e :: l).any (fun e => categoryGroup e.1 == some g)
          = ((categoryGroup e.1 == some g) || l.any (fun e => categoryGroup e.1 == some g)) :=
        List.any_cons
      have hcount : groupCount (e :: l) g
          = (if categoryGroup e.1 == some g then e.2.length else 0) + groupCount l g := rfl
      have hdet : groupDetails (e :: l) g
          = (if categoryGroup e.1 == some g then e.2 else []) ++ groupDetails l g := rfl
      rcases hcg : categoryGroup e.1 with _ | gg
      · have hcond : (categoryGroup e.1 == some g) = false := by rw [hcg]; rfl
        simp only [List.foldl_cons, hcg]
        rw [ih obj, hany, hcount, hdet, hcond]
        rcases hobj : List.lookup g obj with _ | nd <;> rw [Bool.false_or] <;> simp
      · by_cases hg : gg = g
        · subst hg
          have hcond : (categoryGroup e.1 == some gg) = true := by rw [hcg]; simp
          simp only [List.foldl_cons, hcg]
          rcases hobj : List.lookup gg obj with _ | nd
          · rw [ih (addGroup obj gg e.2), lookup_addGroup_none e.2 hobj, hany, hcount,
                hdet, hcond]
            simp
          · rw [ih (addGroup obj gg e.2), lookup_addGroup_some e.2 hobj, hany, hcount,
                hdet, hcond]
            simp [Nat.add_assoc]
        · have hcond : (categoryGroup e.1 == some g) = false := by rw [hcg]; simp [hg]
          simp only [List.foldl_cons, hcg]
          rw [ih (addGroup obj gg e.2), lookup_addGroup_ne e.2 (fun hh => hg hh.symm),
              hany, hcount, hdet, hcond]
          rcases hobj : List.lookup g obj with _ | nd <;> rw [Bool.false_or] <;> simp

/-! ## Claim theorems -/

/-- C1: the strict policy (app.py) classifies the scenario DOM of
`<h1>Welcome</h1><nav><a href="/home">Home</a></nav><p>Lorem ipsum</p>` as
claimed, with an empty link_block; but the loose policy (app1.py) does not
match the claim: since `a.find_parent(nav_elems)` matches no ancestor when a
nav-matching element exists, the in-nav anchor is also appended to
link_block, so app1.py yields link_block = [{href: "/home", text: "Home"}]
and the two policies disagree on this input — contrary to the claim, which
asserts an empty link_block and identical results. -/
theorem claim_C1 :
    App.parse_components c1doc = c1Result
      ∧ App1.parse_components c1doc = c1ResultLoose
      ∧ App1.parse_components c1doc ≠ App.parse_components c1doc := by
  refine ⟨by decide, by decide, by decide⟩

/-- C3 (amended): the deduplication/normalization step is idempotent on every
classification result in which no record holds the null marker in an `src`,
`alt` or `text` field (in particular on every classification result whose
records were already normalized); on results with such null values a second
application can differ from the first, see the counterexample. -/
theorem claim_C3 (m : Comps) (h : compsNullFree m) :
    App.clean_components (App.clean_components m) = App.clean_components m
      ∧ App1.clean_components (App1.clean_components m) = App1.clean_components m := by
  constructor
  · have h1 := cleanApp_nf h
    have hNF1 : compsNullFree (App.clean_components m) := by
      rw [h1]
      exact compsNullFree_ensureKey _ (compsNullFree_ensureKey _ (compsNullFree_ensureKey _
        (compsNullFree_dedupPhase h)))
    rw [cleanApp_nf hNF1, h1, dedupPhase_ensure3 _ (dedupPhase_idem m)]
  · have h1 := clean1_nf h
    have hNF1 : compsNullFree (App1.clean_components m) := by
      rw [h1]
      exact compsNullFree_dedupPhase h
    rw [clean1_nf hNF1, h1, dedupPhase_idem]

/-- C3 counterexample: on the classification result of
`<img alt="a"><img src="" alt="a">` (produced by both parsers), applying
`clean_components` twice does not equal applying it once, for either variant:
the two image records have distinct dedup signatures (null vs. empty `src`)
but are normalized to the same record after the signature check, so the first
pass emits a duplicate that only the second pass removes. -/
theorem claim_C3_counterexample :
    App.parse_components imgDoc = imgComps
      ∧ App1.parse_components imgDoc = imgComps
      ∧ App.clean_components (App.clean_components imgComps) ≠ App.clean_components imgComps
      ∧ App1.clean_components (App1.clean_components imgComps)
          ≠ App1.clean_components imgComps := by
  refine ⟨by decide, by decide, by decide, by decide⟩

/-- C3 witness: the amended idempotence theorem applied to a concrete
null-free classification result. -/
theorem claim_C3_witness :
    App.clean_components (App.clean_components w3m) = App.clean_components w3m
      ∧ App1.clean_components (App1.clean_components w3m) = App1.clean_components w3m :=
  claim_C3 w3m (by unfold compsNullFree recNullFree; decide)

/-- C9: on an empty page summary, the insight requester returns the fixed
message "No pages to analyse." without issuing a request to the external
text-generation service. -/
theorem claim_C9 :
    analyze_components_with_gpt [] = GptOutcome.noRequest "No pages to analyse." := rfl

/-- C2: the strict policy behaves as the claim states on the test documents
(the in-nav anchor of `w2doc` is in nav_bar and not in link_block; the
anchor of the nav-free `noNavDoc` is in link_block), but the loose policy
contradicts both directions of the claim: in `w2doc` the in-nav anchor
appears in link_block as well as in nav_bar (with a nav-matching element
present, `find_parent(nav_elems)` matches no ancestor, so every `href`
anchor is appended), and in `noNavDoc` link_block is empty although its
anchor is inside no nav-matching container (with no nav-matching element,
the empty criterion list matches the anchor's first parent, so no anchor is
ever appended). -/
theorem claim_C2 :
    (App.mkLink w2a ∈ getCat (App.parse_components w2doc) "nav_bar"
      ∧ App.mkLink w2a ∉ getCat (App.parse_components w2doc) "link_block"
      ∧ App.mkLink yA ∈ getCat (App.parse_components noNavDoc) "link_block")
    ∧ (App1.mkLink w2a ∈ getCat (App1.parse_components w2doc) "nav_bar"
      ∧ App1.mkLink w2a ∈ getCat (App1.parse_components w2doc) "link_block"
      ∧ getCat (App1.parse_components noNavDoc) "link_block" = []) := by
  refine ⟨⟨by decide, by decide, by decide⟩, ⟨by decide, by decide, by decide⟩⟩

/-! Record-shape helpers for C4. -/

theorem pair_list2_cases {α : Type} {x a b : α} (h : x ∈ [a, b]) : x = a ∨ x = b := by
  rcases List.mem_cons.1 h with h | h
  · exact Or.inl h
  · exact Or.inr (List.mem_singleton.1 h)

theorem tagText_sat {t : Node} {kv : String × Option String}
    (h : kv ∈ App.mkTagText t) : kv.2 ≠ none := by
  rcases pair_list2_cases h with rfl | rfl <;> simp

theorem tagText1_sat {t : Node} {kv : String × Option String}
    (h : kv ∈ App1.mkTagText t) : kv.2 ≠ none := by
  rcases pair_list2_cases h with rfl | rfl <;> simp

theorem mkLink_sat_app {a : Node} {kv : String × Option String}
    (h : kv ∈ App.mkLink a) : kv.2 ≠ none := by
  rcases pair_list2_cases h with rfl | rfl <;> simp

theorem mkForm_sat {f : Node} {kv : String × Option String} (h : kv ∈ mkForm f)
    (hk : kv.1 = "src" ∨ kv.1 = "alt" ∨ kv.1 = "text") : kv.2 ≠ none := by
  rcases pair_list2_cases h with rfl | rfl
  · rcases hk with hk | hk | hk <;> simp at hk
  · simp

theorem normImg_mkImg (i : Node) :
    App.normImg (mkImg i)
      = [("src", some ((i.attr "src").getD "")), ("alt", some ((i.attr "alt").getD ""))] := by
  simp [App.normImg, mkImg, normField]

theorem normText_mkLink (a : Node) :
    normField (App.mkLink a) "text" = App.mkLink a := by
  simp [App.mkLink, normField]

theorem normRec_sat {r0 : JRec} {kv : String × Option String}
    (hkv : kv ∈ App1.normRec r0)
    (hk : kv.1 = "src" ∨ kv.1 = "alt" ∨ kv.1 = "text") : kv.2 ≠ none := by
  have hkv' : kv ∈ normField (normField (normField r0 "src") "alt") "text" := hkv
  rcases hk with hk | hk | hk
  · have h1 := normField_mem_ne hkv' (by simp [hk])
    have h2 := normField_mem_ne h1 (by simp [hk])
    exact normField_key_some h2 hk
  · have h1 := normField_mem_ne hkv' (by simp [hk])
    exact normField_key_some h1 hk
  · exact normField_key_some hkv' hk

theorem parse_rec_sat_app {doc : NodeList} {c : String} {r : JRec}
    (hr : r ∈ getCat (App.parse_components doc) c) (hc : c ≠ "image_gallery")
    {kv : String × Option String} (hkv : kv ∈ r)
    (hk : kv.1 = "src" ∨ kv.1 = "alt" ∨ kv.1 = "text") : kv.2 ≠ none := by
  by_cases h1 : c = "header"
  · subst h1
    rw [getCat_parseApp_header] at hr
    rcases List.mem_map.1 hr with ⟨t, _, rfl⟩
    exact tagText_sat hkv
  by_cases h2 : c = "footer"
  · subst h2
    rw [getCat_parseApp_footer] at hr
    rcases List.mem_map.1 hr with ⟨t, _, rfl⟩
    exact tagText_sat hkv
  by_cases h3 : c = "text_block"
  · subst h3
    rw [getCat_parseApp_text] at hr
    rcases List.mem_map.1 hr with ⟨t, _, rfl⟩
    exact tagText_sat hkv
  by_cases h4 : c = "nav_bar"
  · subst h4
    rw [getCat_parseApp_nav] at hr
    unfold App.navRecs at hr
    rcases List.mem_flatMap.1 hr with ⟨nav, _, hmm⟩
    rcases List.mem_map.1 hmm with ⟨a, _, rfl⟩
    exact mkLink_sat_app hkv
  by_cases h6 : c = "link_block"
  · subst h6
    rw [getCat_parseApp_link] at hr
    unfold App.linkRecs at hr
    rcases List.mem_map.1 hr with ⟨p, _, rfl⟩
    exact mkLink_sat_app hkv
  by_cases h7 : c = "button_block"
  · subst h7
    rw [getCat_parseApp_button] at hr
    rcases List.mem_map.1 hr with ⟨b, _, rfl⟩
    rw [List.mem_singleton] at hkv
    subst hkv
    simp
  by_cases h8 : c = "forms"
  · subst h8
    rw [getCat_parseApp_forms] at hr
    unfold formRecs at hr
    rcases List.mem_map.1 hr with ⟨f, _, rfl⟩
    exact mkForm_sat hkv hk
  by_cases h9 : c = "modals"
  · subst h9
    rw [getCat_parseApp_modals] at hr
    rcases List.mem_map.1 hr with ⟨d, _, rfl⟩
    rw [List.mem_singleton] at hkv
    subst hkv
    simp
  rw [getCat_parseApp_other doc h1 h2 h3 h4 hc h6 h7 h8 h9] at hr
  exact absurd hr (List.not_mem_nil r)

/-- C4: for every document, after `clean_components` runs on the classifier's
output (in either variant), no record has the null marker as the value of an
`src`, `alt` or `text` field. -/
theorem claim_C4 (doc : NodeList) :
    (∀ (c : String), ∀ r ∈ getCat (App.clean_components (App.parse_components doc)) c,
      ∀ kv ∈ r, (kv.1 = "src" ∨ kv.1 = "alt" ∨ kv.1 = "text") → kv.2 ≠ none)
    ∧ (∀ (c : String), ∀ r ∈ getCat (App1.clean_components (App1.parse_components doc)) c,
      ∀ kv ∈ r, (kv.1 = "src" ∨ kv.1 = "alt" ∨ kv.1 = "text") → kv.2 ≠ none) := by
  constructor
  · intro c r hr kv hkv hk
    have hnd := parseApp_keys_nodup doc
    by_cases h5 : c = "image_gallery"
    · subst h5
      rw [getCat_cleanApp_img hnd] at hr
      rcases List.mem_map.1 hr with ⟨r0, hr0, rfl⟩
      have hr0' : r0 ∈ App.galleryRecs doc ++ App.standaloneImgRecs doc := by
        rw [← getCat_parseApp_img]
        exact dedup_subset hr0
      have hex : ∃ i, r0 = mkImg i := by
        rcases List.mem_append.1 hr0' with hh | hh
        · unfold App.galleryRecs at hh
          rcases List.mem_flatMap.1 hh with ⟨d, _, hmm⟩
          rcases List.mem_map.1 hmm with ⟨i, _, hi⟩
          exact ⟨i, hi.symm⟩
        · unfold App.standaloneImgRecs at hh
          rcases List.mem_map.1 hh with ⟨p, _, hi⟩
          exact ⟨p.2, hi.symm⟩
      rcases hex with ⟨i, rfl⟩
      rw [normImg_mkImg] at hkv
      rcases pair_list2_cases hkv with rfl | rfl <;> simp
    by_cases h6 : c = "link_block"
    · subst h6
      rw [getCat_cleanApp_link hnd] at hr
      rcases List.mem_map.1 hr with ⟨r0, hr0, rfl⟩
      have hr0' : r0 ∈ App.linkRecs doc := by
        rw [← getCat_parseApp_link]
        exact dedup_subset hr0
      unfold App.linkRecs at hr0'
      rcases List.mem_map.1 hr0' with ⟨p, _, rfl⟩
      rw [normText_mkLink] at hkv
      exact mkLink_sat_app hkv
    by_cases h7 : c = "nav_bar"
    · subst h7
      rw [getCat_cleanApp_nav hnd] at hr
      rcases List.mem_map.1 hr with ⟨r0, hr0, rfl⟩
      have hr0' : r0 ∈ App.navRecs doc := by
        rw [← getCat_parseApp_nav]
        exact dedup_subset hr0
      unfold App.navRecs at hr0'
      rcases List.mem_flatMap.1 hr0' with ⟨nav, _, hmm⟩
      rcases List.mem_map.1 hmm with ⟨a, _, rfl⟩
      rw [normText_mkLink] at hkv
      exact mkLink_sat_app hkv
    rw [getCat_cleanApp_other hnd h5 h6 h7] at hr
    exact parse_rec_sat_app (dedup_subset hr) h5 hkv hk
  · intro c r hr kv hkv hk
    rcases mem_getCat_clean1 hr with ⟨r0, rfl⟩
    exact normRec_sat hkv hk

/-- C4 witness: the cleaned image record of `imgDoc` carries the empty string
(not null) in its `src` field. -/
theorem claim_C4_witness : (some "" : Option String) ≠ none :=
  (claim_C4 imgDoc).1 "image_gallery" [("src", some ""), ("alt", some "a")] (by decide)
    ("src", some "") (by decide) (Or.inl rfl)

/-! Truncation lemmas for C5. -/

theorem pytake_length_le (n : Nat) (s : String) : (pytake n s).length ≤ n := by
  show (s.data.take n).length ≤ n
  rw [List.length_take]
  exact min_le_left _ _

theorem fieldLen_tagText_app (t : Node) :
    fieldLen (App.mkTagText t) "text" = (pytake 100 t.getTextS).length := by
  simp [fieldLen, fieldOf, App.mkTagText, List.lookup]

theorem fieldLen_tagText_app1 (t : Node) :
    fieldLen (App1.mkTagText t) "text" = (pytake 120 t.getTextSp).length := by
  simp [fieldLen, fieldOf, App1.mkTagText, List.lookup]

theorem fieldLen_single_html (s : String) :
    fieldLen [("html", some s)] "html" = s.length := by
  simp [fieldLen, fieldOf, List.lookup]

/-- C5: every record emitted by the classifier obeys its category's
truncation limit: under the strict policy (app.py) header, footer and
text_block texts are at most 100 characters and button_block / modals
serialized markup at most 120; under the loose policy (app1.py) the limits
are 120 and 150 respectively. -/
theorem claim_C5 (doc : NodeList) :
    ((∀ r ∈ getCat (App.parse_components doc) "header", fieldLen r "text" ≤ 100)
      ∧ (∀ r ∈ getCat (App.parse_components doc) "footer", fieldLen r "text" ≤ 100)
      ∧ (∀ r ∈ getCat (App.parse_components doc) "text_block", fieldLen r "text" ≤ 100)
      ∧ (∀ r ∈ getCat (App.parse_components doc) "button_block", fieldLen r "html" ≤ 120)
      ∧ (∀ r ∈ getCat (App.parse_components doc) "modals", fieldLen r "html" ≤ 120))
    ∧ ((∀ r ∈ getCat (App1.parse_components doc) "header", fieldLen r "text" ≤ 120)
      ∧ (∀ r ∈ getCat (App1.parse_components doc) "footer", fieldLen r "text" ≤ 120)
      ∧ (∀ r ∈ getCat (App1.parse_components doc) "text_block", fieldLen r "text" ≤ 120)
      ∧ (∀ r ∈ getCat (App1.parse_components doc) "button_block", fieldLen r "html" ≤ 150)
      ∧ (∀ r ∈ getCat (App1.parse_components doc) "modals", fieldLen r "html" ≤ 150)) := by
  refine ⟨⟨?_, ?_, ?_, ?_, ?_⟩, ⟨?_, ?_, ?_, ?_, ?_⟩⟩
  · intro r hr
    rw [getCat_parseApp_header] at hr
    rcases List.mem_map.1 hr with ⟨t, _, rfl⟩
    rw [fieldLen_tagText_app]
    exact pytake_length_le _ _
  · intro r hr
    rw [getCat_parseApp_footer] at hr
    rcases List.mem_map.1 hr with ⟨t, _, rfl⟩
    rw [fieldLen_tagText_app]
    exact pytake_length_le _ _
  · intro r hr
    rw [getCat_parseApp_text] at hr
    rcases List.mem_map.1 hr with ⟨t, _, rfl⟩
    rw [fieldLen_tagText_app]
    exact pytake_length_le _ _
  · intro r hr
    rw [getCat_parseApp_button] at hr
    rcases List.mem_map.1 hr with ⟨b, _, rfl⟩
    rw [fieldLen_single_html]
    exact pytake_length_le _ _
  · intro r hr
    rw [getCat_parseApp_modals] at hr
    rcases List.mem_map.1 hr with ⟨d, _, rfl⟩
    rw [fieldLen_single_html]
    exact pytake_length_le _ _
  · intro r hr
    rw [getCat_parseApp1_header] at hr
    rcases List.mem_map.1 hr with ⟨t, _, rfl⟩
    rw [fieldLen_tagText_app1]
    exact pytake_length_le _ _
  · intro r hr
    rw [getCat_parseApp1_footer] at hr
    rcases List.mem_map.1 hr with ⟨t, _, rfl⟩
    rw [fieldLen_tagText_app1]
    exact pytake_length_le _ _
  · intro r hr
    rw [getCat_parseApp1_text] at hr
    rcases List.mem_map.1 hr with ⟨t, _, rfl⟩
    rw [fieldLen_tagText_app1]
    exact pytake_length_le _ _
  · intro r hr
    rw [getCat_parseApp1_button] at hr
    rcases List.mem_map.1 hr with ⟨b, _, rfl⟩
    rw [fieldLen_single_html]
    exact pytake_length_le _ _
  · intro r hr
    rw [getCat_parseApp1_modals] at hr
    rcases List.mem_map.1 hr with ⟨d, _, rfl⟩
    rw [fieldLen_single_html]
    exact pytake_length_le _ _

/-- C5 witness: the heading and button records of a concrete document obey
the strict-policy limits, and the heading record also obeys the loose one. -/
theorem claim_C5_witness :
    fieldLen [("tag", some "h1"), ("text", some "Hi")] "text" ≤ 100
      ∧ fieldLen [("tag", some "h1"), ("text", some "Hi")] "text" ≤ 120 :=
  ⟨(claim_C5 w5doc).1.1 [("tag", some "h1"), ("text", some "Hi")] (by decide),
   (claim_C5 w5doc).2.1 [("tag", some "h1"), ("text", some "Hi")] (by decide)⟩

/-- C6: for every walked MIME part list, if there is exactly one `text/html`
part and its payload is present and non-empty, extraction returns that
part's decoded text; if there is no `text/html` part, extraction returns the
no-content signal `none` (and the caller skips the file). -/
theorem claim_C6 (decode : List Nat → String) (parts : List MPart) :
    (∀ p bs, parts.filter (fun q => q.contentType == "text/html") = [p] →
      p.payload = some bs → bs ≠ [] →
      extract_html_from_mhtml decode parts = some (decode bs))
    ∧ (parts.filter (fun q => q.contentType == "text/html") = [] →
      extract_html_from_mhtml decode parts = none) := by
  induction parts with
  | nil =>
      constructor
      · intro p bs hf
        simp at hf
      · intro _
        rfl
  | cons q ps ih =>
      constructor
      · intro p bs hf hp hbs
        rw [extract_html_from_mhtml]
        by_cases hq : (q.contentType == "text/html") = true
        · rw [if_pos hq]
          simp only [List.filter_cons, hq, if_true] at hf
          rw [List.cons_eq_cons] at hf
          obtain ⟨h1, _⟩ := hf
          subst h1
          rcases bs with _ | ⟨b, bs⟩
          · exact absurd rfl hbs
          · simp [hp]
        · rw [if_neg hq]
          simp only [List.filter_cons, hq, if_false] at hf
          exact ih.1 p bs hf hp hbs
      · intro hf
        rw [extract_html_from_mhtml]
        by_cases hq : (q.contentType == "text/html") = true
        · simp only [List.filter_cons, hq, if_true] at hf
          simp at hf
        · rw [if_neg hq]
          simp only [List.filter_cons, hq, if_false] at hf
          exact ih.2 hf

/-- C6 witness: a two-part walk whose only HTML part decodes to "page", and
an empty walk yielding the no-content signal. -/
theorem claim_C6_witness :
    extract_html_from_mhtml (fun _ => "page") w6parts = some "page"
      ∧ extract_html_from_mhtml (fun _ => "page") [] = none :=
  ⟨(claim_C6 (fun _ => "page") w6parts).1 ⟨"text/html", some [104, 105]⟩ [104, 105]
      (by decide) rfl (by decide),
   (claim_C6 (fun _ => "page") []).2 rfl⟩

/-- C7: the aggregator maps each display group present in a file's
classification result to a count equal to the total number of records across
all categories folding into that group and to details equal to their
concatenation; in particular header=[x] and footer=[y] aggregate into the
single group "Header/Footer" with count 2 and details [x, y]. -/
theorem claim_C7 :
    (∀ x y : JRec, fileGroups [("header", [x]), ("footer", [y])]
        = [("Header/Footer", (2, [x, y]))])
    ∧ ∀ (comps : Comps) (g : String), (∃ e ∈ comps, categoryGroup e.1 = some g) →
        List.lookup g (fileGroups comps)
          = some (groupCount comps g, groupDetails comps g) := by
  constructor
  · intro x y
    rfl
  · intro comps g hex
    have h := lookup_fileGroups_fold comps g []
    rw [show (List.lookup g ([] : List (String × GroupEntry))) = none from rfl] at h
    have hany : comps.any (fun e => categoryGroup e.1 == some g) = true := by
      rcases hex with ⟨e, he, hge⟩
      exact List.any_eq_true.2 ⟨e, he, by simp [hge]⟩
    rw [hany, if_pos rfl] at h
    exact h

/-- C7 witness: a file containing a single header record aggregates into the
"Header/Footer" group with the total count and concatenated details. -/
theorem claim_C7_witness :
    List.lookup "Header/Footer" (fileGroups [("header", [w7r])])
      = some (groupCount [("header", [w7r])] "Header/Footer",
              groupDetails [("header", [w7r])] "Header/Footer") :=
  claim_C7.2 [("header", [w7r])] "Header/Footer" ⟨("header", [w7r]), by decide, by decide⟩

/-- C8: a display group none of whose folding categories occur in the file's
classification result is absent from that file's aggregated view. -/
theorem claim_C8 (comps : Comps) (g : String)
    (h : ∀ e ∈ comps, categoryGroup e.1 ≠ some g) :
    List.lookup g (fileGroups comps) = none := by
  have hh := lookup_fileGroups_fold comps g []
  rw [show (List.lookup g ([] : List (String × GroupEntry))) = none from rfl] at hh
  have hany : comps.any (fun e => categoryGroup e.1 == some g) = false := by
    rw [List.any_eq_false]
    intro e he
    simp only [beq_iff_eq]
    exact h e he
  rw [hany, if_neg (by simp)] at hh
  exact hh

/-- C8 witness: a file with only a header category has no "Modal" group in
its aggregated view. -/
theorem claim_C8_witness : List.lookup "Modal" (fileGroups [("header", [w7r])]) = none :=
  claim_C8 [("header", [w7r])] "Modal" (by decide)

/-! Form-record lemmas for C10. -/

theorem sig_mkForm (f : Node) : sigOf (mkForm f) = mkForm f := by
  simp [sigOf, mkForm, insertByKey, charsLe]

theorem normRec_mkForm (f : Node) : App1.normRec (mkForm f) = mkForm f := by
  simp [App1.normRec, normField, mkForm]

theorem mem_dedupNorm_of {l : List JRec} {r : JRec}
    (hmem : r ∈ l) (huniq : ∀ r' ∈ l, sigOf r' = sigOf r → r' = r) :
    ∀ seen, sigOf r ∉ seen → App1.normRec r ∈ App1.dedupNorm seen l := by
  induction l with
  | nil => simp at hmem
  | cons i is ih =>
      intro seen hseen
      rw [App1.dedupNorm]
      by_cases hs : sigOf i ∈ seen
      · rw [if_pos hs]
        rcases List.mem_cons.1 hmem with hmem | hmem
        · exact absurd (hmem ▸ hs) hseen
        · exact ih hmem (fun r' hr' => huniq r' (List.mem_cons_of_mem _ hr')) seen hseen
      · rw [if_neg hs]
        by_cases hri : r = i
        · rw [← hri]
          exact List.mem_cons_self _ _
        · rcases List.mem_cons.1 hmem with hmem | hmem
          · exact absurd hmem hri
          · refine List.mem_cons_of_mem _ ?_
            apply ih hmem (fun r' hr' => huniq r' (List.mem_cons_of_mem _ hr'))
            intro hin
            rcases List.mem_cons.1 hin with hin | hin
            · exact hri (huniq i (List.mem_cons_self _ _) hin.symm).symm
            · exact hseen hin

theorem formRecs_sig_uniq {doc : NodeList} {f : Node} {r' : JRec}
    (hr' : r' ∈ formRecs doc) (hsig : sigOf r' = sigOf (mkForm f)) : r' = mkForm f := by
  rcases List.mem_map.1 hr' with ⟨f', _, rfl⟩
  rw [sig_mkForm, sig_mkForm] at hsig
  exact hsig

/-- C10 (implicit): a form element with no `action` attribute is emitted with
the null marker as its `action` value, and because neither variant's
normalization touches the `action` field, the null survives
`clean_components` in both apps, observable downstream. -/
theorem claim_C10 (doc : NodeList) (f : Node)
    (hf : f ∈ (NodeList.subElems doc).filter isForm)
    (ha : f.attr "action" = none) :
    List.lookup "action" (mkForm f) = some none
      ∧ mkForm f ∈ getCat (App.parse_components doc) "forms"
      ∧ mkForm f ∈ getCat (App.clean_components (App.parse_components doc)) "forms"
      ∧ mkForm f ∈ getCat (App1.parse_components doc) "forms"
      ∧ mkForm f ∈ getCat (App1.clean_components (App1.parse_components doc)) "forms" := by
  have hmem : mkForm f ∈ formRecs doc := List.mem_map_of_mem _ hf
  refine ⟨?_, ?_, ?_, ?_, ?_⟩
  · simp [mkForm, List.lookup, ha]
  · rw [getCat_parseApp_forms]
    exact hmem
  · rw [getCat_cleanApp_other (parseApp_keys_nodup doc) (by decide) (by decide) (by decide),
        getCat_parseApp_forms]
    exact mem_dedup_of hmem (fun r' hr' hs => formRecs_sig_uniq hr' hs) [] (by simp)
  · rw [getCat_parseApp1_forms]
    exact hmem
  · rw [getCat_clean1 (parseApp1_keys_nodup doc), getCat_parseApp1_forms]
    have h := mem_dedupNorm_of hmem (fun r' hr' hs => formRecs_sig_uniq hr' hs) [] (by simp)
    rwa [normRec_mkForm] at h

/-- C10 witness: a concrete form with a method but no action keeps its null
action through cleaning under the strict variant. -/
theorem claim_C10_witness :
    List.lookup "action" (mkForm w10form) = some none
      ∧ mkForm w10form ∈ getCat (App.clean_components (App.parse_components w10doc)) "forms" := by
  have h := claim_C10 w10doc w10form (by decide) (by decide)
  exact ⟨h.1, h.2.2.1⟩
